import Mathlib

/-!
Shallow embedding of the pipeline simulation engine of `src/code.py`
(classes `Instruction`, `InstructionFactory`, `Pipeline` and
`SimpleBranchPredictor`), together with proofs about the specification's
claims.  Python list indexing that can raise `IndexError` is modelled by
`Option`-returning access functions, and a `step` that would raise is
modelled as returning `none`.  The in-place mutation of instruction
objects is modelled by replacing the slot entry with the updated value
(each fetched instruction lives in exactly one slot at a time, so the
functional update is faithful to the aliasing in the source).
-/

/-- One program instruction (class `Instruction`).  `reads` and `writes`
are lists of register names; the Python register value `None` is modelled
by the empty string, which the hazard check skips exactly as the
truthiness test `if r` does in the source. -/
structure Instruction where
  name : String
  reads : List String
  writes : List String
  is_branch : Bool
  predicted_taken : Option Bool
  actual_taken : Option Bool
deriving DecidableEq, Repr

/-- `InstructionFactory.create_load` with no source register (the
`value_source_reg=None` case of the source). -/
def create_load (name target_reg : String) : Instruction :=
  ⟨name, [], [target_reg], false, none, none⟩

/-- `InstructionFactory.create_load` with a source register. -/
def create_load_from (name target_reg value_source_reg : String) : Instruction :=
  ⟨name, [value_source_reg], [target_reg], false, none, none⟩

/-- `InstructionFactory.create_alu`. -/
def create_alu (name : String) (reads writes : List String) : Instruction :=
  ⟨name, reads, writes, false, none, none⟩

/-- `InstructionFactory.create_branch` (with the default empty write set). -/
def create_branch (name : String) (reads : List String) : Instruction :=
  ⟨name, reads, [], true, none, none⟩

/-- The two-operation branch-predictor capability consumed by the engine
(`predict` and `actual_outcome` of `SimpleBranchPredictor`).  A record of
deterministic functions; the random mode of the source is nondeterministic
and is covered by quantifying over such records. -/
structure Predictor where
  predict : Instruction → Bool
  actual_outcome : Instruction → Bool

/-- `SimpleBranchPredictor.predict`: the two static modes are deterministic;
the default mode draws a random boolean, which is passed here explicitly as
the oracle argument `coin`. -/
def SimpleBranchPredictor.predict (mode : String) (coin : Bool)
    (_instr : Instruction) : Bool :=
  if mode = "static_taken" then true
  else if mode = "static_not_taken" then false
  else coin

/-- A slot occupant: program-order index paired with the instruction. -/
abbrev Entry := Nat × Instruction

/-- Keys of a per-cycle event record.  The Python dict uses the tuples
`(index, 1)` for predictions, `("stall", cycle)` for stalls,
`("branch", index)` for branch outcomes and the one-tuple `(stage_index,)`
for the per-stage snapshot; the four shapes are pairwise distinct Python
values, modelled by four constructors. -/
inductive EventKey where
  | pred (idx : Nat)
  | stall (cycle : Nat)
  | branch (idx : Nat)
  | stage (idx : Nat)
deriving DecidableEq, Repr

/-- A per-cycle event record: the Python dict in insertion order. -/
abbrev EventRec := List (EventKey × String)

/-- The engine state (class `Pipeline`).  The branch predictor, stored on
the object in the source, is passed to `step` explicitly; the observer
list belongs to the excluded presentation layer and is not modelled. -/
structure Pipeline where
  stages : List String
  instr_queue : List Instruction
  pipeline_regs : List (Option Entry)
  cycle : Nat
  stalls : Nat
  flushed : Nat
  timeline : List EventRec
deriving DecidableEq, Repr

/-- `Pipeline.__init__`: stores the inputs and an all-empty slot list, one
slot per stage; it performs no validation of the stage count. -/
def Pipeline.init (stages : List String) (instructions : List Instruction) :
    Pipeline :=
  { stages := stages
    instr_queue := instructions
    pipeline_regs := List.replicate stages.length none
    cycle := 0
    stalls := 0
    flushed := 0
    timeline := [] }

/-- Python list read `regs[i]`: `none` models an `IndexError`. -/
def getSlot : List (Option Entry) → Nat → Option (Option Entry)
  | [], _ => none
  | x :: _, 0 => some x
  | _ :: xs, n + 1 => getSlot xs n

/-- Python list write `regs[i] = v`: `none` models an `IndexError`. -/
def setSlot : List (Option Entry) → Nat → Option Entry →
    Option (List (Option Entry))
  | [], _, _ => none
  | _ :: xs, 0, v => some (v :: xs)
  | x :: xs, n + 1, v => (setSlot xs n v).map (fun ys => x :: ys)

/-- `Pipeline.detect_data_hazard`: true when some non-empty register read
by `instr` is written by `earlier_instr`. -/
def detect_data_hazard (instr : Instruction)
    (earlier_instr : Option Instruction) : Bool :=
  match earlier_instr with
  | none => false
  | some e => instr.reads.any (fun r => !(r == "") && e.writes.contains r)

/-- The decode-slot prediction update (source lines 66-68): a branch
without a prediction gets one from the predictor and a PRED event is
recorded; any other occupant is returned untouched. -/
def applyPredict (P : Predictor) (e : Entry) : Entry × EventRec :=
  if e.2.is_branch && e.2.predicted_taken.isNone then
    let b := P.predict e.2
    (⟨e.1, { e.2 with predicted_taken := some b }⟩,
      [(EventKey.pred e.1, if b then "PRED:T" else "PRED:N")])
  else (e, [])

/-- The execute-slot branch resolution (source lines 89-101): returns the
updated entry (with `actual_taken` stored), the branch event, the flush
counter increment, and whether slots 0 and 1 must be squashed. -/
def resolveBranch (P : Predictor) (e : Entry) :
    Entry × EventRec × Nat × Bool :=
  if e.2.is_branch then
    let outcome := P.actual_outcome e.2
    let ins2 := { e.2 with actual_taken := some outcome }
    if ins2.predicted_taken ≠ some outcome then
      (⟨e.1, ins2⟩, [(EventKey.branch e.1, "MISPREDICT")], 1, true)
    else
      (⟨e.1, ins2⟩, [(EventKey.branch e.1, "PRED_CORRECT")], 0, false)
  else (e, [], 0, false)

/-- The misprediction squash (source lines 96-99): clear slots 0 and 1
when occupied.  The reads succeed whenever the list has length at least
3, which holds at every use site (`step` has already read slot 2). -/
def squash01 (regs : List (Option Entry)) : List (Option Entry) :=
  let r1 := match getSlot regs 0 with
    | some (some _) => regs.set 0 none
    | _ => regs
  match getSlot r1 1 with
  | some (some _) => r1.set 1 none
  | _ => r1

/-- The per-stage snapshot loop (source lines 103-110): one stage-keyed
status per stage index `j, j+1, ..., j+n-1`, read from the slot list,
failing when a stage index is out of range of the slot list. -/
def snapshot (regs : List (Option Entry)) : Nat → Nat → Option EventRec
  | _, 0 => some []
  | j, n + 1 =>
    match getSlot regs j with
    | none => none
    | some entry =>
      (snapshot regs (j + 1) n).map
        (fun rest =>
          (EventKey.stage j,
            match entry with
            | none => ""
            | some (_, ins) => ins.name) :: rest)

/-- The stall decision of source lines 60-65: a stall is needed exactly
when the decode slot and the execute slot are both occupied and their
occupants exhibit a data hazard. -/
def stallCond : Option Entry → Option Entry → Bool
  | some a, some b => detect_data_hazard a.2 (some b.2)
  | _, _ => false

/-- `Pipeline.step` (source lines 56-113).  `none` models an uncaught
`IndexError` from slot indexing (in the source such an error leaves the
object partially mutated; that partial state is not modelled).  The event
record reproduces the insertion order of the Python dict: prediction
event, stall event, branch event, then the per-stage statuses. -/
def step (P : Predictor) (s : Pipeline) : Option Pipeline := do
  let cycle := s.cycle + 1
  let id_instr ← getSlot s.pipeline_regs 1
  let ex_instr ← getSlot s.pipeline_regs 2
  let stall_needed := stallCond id_instr ex_instr
  let pr ←
    match id_instr with
    | some e =>
      let pe := applyPredict P e
      (setSlot s.pipeline_regs 1 (some pe.1)).map (fun r => (r, pe.2))
    | none => some (s.pipeline_regs, ([] : EventRec))
  let regs1 := pr.1
  let evP := pr.2
  let sh ←
    if stall_needed then do
      let a ← getSlot regs1 3
      let r1 ← setSlot regs1 4 a
      let b ← getSlot r1 2
      let r2 ← setSlot r1 3 b
      let r3 ← setSlot r2 2 none
      some (r3, s.instr_queue, s.stalls + 1,
        ([(EventKey.stall cycle, "DATA_STALL")] : EventRec))
    else do
      let a ← getSlot regs1 3
      let r1 ← setSlot regs1 4 a
      let b ← getSlot r1 2
      let r2 ← setSlot r1 3 b
      let c ← getSlot r2 1
      let r3 ← setSlot r2 2 c
      let d ← getSlot r3 0
      let r4 ← setSlot r3 1 d
      match s.instr_queue with
      | instr :: rest =>
        (setSlot r4 0 (some (s.timeline.length, instr))).map
          (fun r5 => (r5, rest, s.stalls, ([] : EventRec)))
      | [] =>
        (setSlot r4 0 none).map
          (fun r5 => (r5, s.instr_queue, s.stalls, ([] : EventRec)))
  let regs2 := sh.1
  let q2 := sh.2.1
  let stalls2 := sh.2.2.1
  let evS := sh.2.2.2
  let ex2 ← getSlot regs2 2
  let res :=
    match ex2 with
    | some e =>
      match resolveBranch P e with
      | (e2, evB, df, sq) =>
        let rB := regs2.set 2 (some e2)
        (if sq then squash01 rB else rB, s.flushed + df, evB)
    | none => (regs2, s.flushed, ([] : EventRec))
  let regs3 := res.1
  let flushed3 := res.2.1
  let evB := res.2.2
  let evStages ← snapshot regs3 0 s.stages.length
  some { stages := s.stages
         instr_queue := q2
         pipeline_regs := regs3
         cycle := cycle
         stalls := stalls2
         flushed := flushed3
         timeline := s.timeline ++ [evP ++ evS ++ evB ++ evStages] }

/-- `Pipeline.is_done`: true iff every slot is empty and the backlog is
empty (truthiness of `any(...)` and of the list in the source). -/
def Pipeline.is_done (s : Pipeline) : Bool :=
  !s.pipeline_regs.any Option.isSome && s.instr_queue.isEmpty

/-- Iterate `step` `n` times from `s`. -/
def stepN (P : Predictor) (s : Pipeline) : Nat → Option Pipeline
  | 0 => some s
  | n + 1 =>
    match step P s with
    | some s2 => stepN P s2 n
    | none => none

/-- A state reachable from `s0` by some number of successful steps. -/
def Reachable (P : Predictor) (s0 s : Pipeline) : Prop :=
  ∃ n, stepN P s0 n = some s

/-- The fetch decision of one `step` from `s` (source lines 83-86):
`some i` exactly when the cycle is not stalled and the backlog is
nonempty, in which case `step` fetches the backlog head tagged with the
program-order index `i = s.timeline.length`. -/
def fetchesIdx (s : Pipeline) : Option Nat :=
  match getSlot s.pipeline_regs 1, getSlot s.pipeline_regs 2 with
  | some ido, some exo =>
    if stallCond ido exo then none
    else
      match s.instr_queue with
      | [] => none
      | _ :: _ => some s.timeline.length
  | _, _ => none

/-- The prediction phase applied to the decode-slot content: an occupied
slot goes through `applyPredict`, an empty slot is untouched and yields
no event. -/
def predSlot (P : Predictor) : Option Entry → Option Entry × EventRec
  | some e => ((applyPredict P e).1, (applyPredict P e).2)
  | none => (none, [])

/-- The fetch of source lines 83-88: pop the backlog head into slot 0
tagged with the current timeline length, or clear slot 0 when the
backlog is empty.  Returns the new slot-0 content and the new backlog. -/
def fetchSlot : List Instruction → Nat → Option Entry × List Instruction
  | i :: rest, tl => (some (tl, i), rest)
  | [], _ => (none, [])

/-- The combined effect of the normal-path shift, fetch, and branch
resolution on a slot list of shape `a0 :: a1 :: a2 :: a3 :: a4 :: rest`
(slot `a4` falls off; `rest` is untouched): returns the final slot list,
the new backlog, the flush-counter increment, and the branch event. -/
def normalCore (P : Predictor) (q : List Instruction) (tl : Nat)
    (a0 a1 a2 a3 : Option Entry) (rest : List (Option Entry)) :
    List (Option Entry) × List Instruction × Nat × EventRec :=
  let a1p := (predSlot P a1).1
  let fq := fetchSlot q tl
  let regs2 := fq.1 :: a0 :: a1p :: a2 :: a3 :: rest
  match a1p with
  | some e =>
    match resolveBranch P e with
    | (e2, evB, df, sq) =>
      let rB := regs2.set 2 (some e2)
      (if sq then squash01 rB else rB, fq.2, df, evB)
  | none => (regs2, fq.2, 0, ([] : EventRec))

/-- The slot list produced by the stall path on a slot list of shape
`a0 :: a1 :: a2 :: a3 :: a4 :: rest`. -/
def stallRegs (P : Predictor) (a0 a1 a2 a3 : Option Entry)
    (rest : List (Option Entry)) : List (Option Entry) :=
  a0 :: (predSlot P a1).1 :: none :: a2 :: a3 :: rest

/-- The entries currently occupying slots, in slot order. -/
def EntriesOf (regs : List (Option Entry)) : List Entry :=
  regs.filterMap id

/-- The program-order indices of the occupying entries, in slot order. -/
def idxs (regs : List (Option Entry)) : List Nat :=
  (EntriesOf regs).map Prod.fst

/-- The last event record of the timeline (the record of the most recent
cycle); `[]` when no cycle has run. -/
def lastRec (s : Pipeline) : EventRec :=
  s.timeline.getLastD []

/-- An instruction as produced by the `Instruction` constructor: both
prediction-outcome fields unset. -/
def Instruction.fresh (i : Instruction) : Prop :=
  i.predicted_taken = none ∧ i.actual_taken = none

/-- The run invariant needed for the once-only field discipline:
every backlog instruction is fresh, the fetch slot holds only fresh
instructions, the decode slot holds no resolved instruction, non-branch
occupants are fresh, every occupant's program-order index is below the
timeline length, and occupant indices are pairwise distinct. -/
def RunInv (s : Pipeline) : Prop :=
  (∀ i ∈ s.instr_queue, i.fresh) ∧
  (∀ e : Entry, getSlot s.pipeline_regs 0 = some (some e) → e.2.fresh) ∧
  (∀ e : Entry, getSlot s.pipeline_regs 1 = some (some e) →
    e.2.actual_taken = none) ∧
  (∀ e ∈ EntriesOf s.pipeline_regs,
    (e.2.is_branch = false → e.2.fresh) ∧ e.1 < s.timeline.length) ∧
  (idxs s.pipeline_regs).Nodup

/-- Field preservation across one step for one instruction: the static
fields are unchanged and each prediction-outcome field is either not yet
set before the step or keeps its value. -/
def FieldsPreserved (ins ins' : Instruction) : Prop :=
  ins'.name = ins.name ∧ ins'.reads = ins.reads ∧ ins'.writes = ins.writes ∧
  ins'.is_branch = ins.is_branch ∧
  (ins.predicted_taken = none ∨ ins'.predicted_taken = ins.predicted_taken) ∧
  (ins.actual_taken = none ∨ ins'.actual_taken = ins.actual_taken)

/-- Index of the first occupied slot, if any. -/
def firstOcc : List (Option Entry) → Option Nat
  | [] => none
  | some _ :: _ => some 0
  | none :: xs => (firstOcc xs).map (fun j => j + 1)

/-- Termination measure for a five-slot pipeline: remaining fetches plus
drain distance.  It drops by at least one on every non-stall cycle of a
non-finished state and never grows on a stall cycle. -/
def measureM (s : Pipeline) : Nat :=
  match s.instr_queue with
  | _ :: _ => s.instr_queue.length + 5
  | [] =>
    match firstOcc s.pipeline_regs with
    | none => 0
    | some j => 5 - j

/-- A static not-taken predictor whose ground-truth outcome is always
"not taken" (no mispredictions ever happen). -/
def notTakenQuiet : Predictor :=
  ⟨fun _ => false, fun _ => false⟩

/-- A static not-taken predictor whose ground-truth outcome is always
"taken" (every branch mispredicts), the forced-resolve predictor of the
specification's misprediction-squash test. -/
def notTakenForcedTaken : Predictor :=
  ⟨fun _ => false, fun _ => true⟩

/-- The stage list of `main` in the source. -/
def stagesFive : List String :=
  ["IF", "ID", "EX", "MEM", "WB"]

/-- `sample_program` from the source. -/
def sample_program : List Instruction :=
  [create_load "I1: LOAD R1" "R1",
   create_alu "I2: ADD R2,R1" ["R1"] ["R2"],
   create_branch "I3: BEQ R2,0 -> LABEL" ["R2"],
   create_alu "I4: ADD R3,R5" ["R5"] ["R3"],
   create_alu "I5: SUB R6,R7" ["R7"] ["R6"]]

/-- Two-instruction program: a load writing R1 followed by a branch
reading R1, so the branch reaches decode exactly when the load is in
execute. -/
def progLoadBranch : List Instruction :=
  [create_load "LD" "R1", create_branch "BR" ["R1"]]

/-- Four-instruction straight-line program whose second instruction
depends on the first: it incurs one stall and no branch ever occurs. -/
def progStallNoBranch : List Instruction :=
  [create_load "LD" "R1", create_alu "AD" ["R1"] ["R2"],
   create_alu "X1" ["R5"] ["R3"], create_alu "X2" ["R7"] ["R6"]]

/-- The engine started on `progLoadBranch` with the standard stages. -/
def pipeLB : Pipeline :=
  Pipeline.init stagesFive progLoadBranch

/-- The state of `pipeLB` under `notTakenQuiet` after three cycles: the
branch sits unpredicted in decode while the load it reads from sits in
execute. -/
def stateLB3 : Pipeline :=
  (stepN notTakenQuiet pipeLB 3).getD pipeLB

/-- The successor of `stateLB3`: the stall cycle that also predicts the
decode-slot branch. -/
def stateLB4 : Pipeline :=
  (step notTakenQuiet stateLB3).getD pipeLB

/-- The engine started on `progStallNoBranch` with the standard stages. -/
def pipeSNB : Pipeline :=
  Pipeline.init stagesFive progStallNoBranch

/-- The claim that a stall event and a misprediction event can occur in
the same cycle's event record: there are a predictor, a configuration, a
reachable state and a step from it whose appended record contains both a
`DATA_STALL` and a `MISPREDICT` event. -/
def StallAndMispredictTogether : Prop :=
  ∃ (P : Predictor) (stages : List String) (instrs : List Instruction)
    (s s' : Pipeline), Reachable P (Pipeline.init stages instrs) s ∧
    step P s = some s' ∧
    (∃ c, (EventKey.stall c, "DATA_STALL") ∈ lastRec s') ∧
    (∃ i, (EventKey.branch i, "MISPREDICT") ∈ lastRec s')

/-- A one-instruction program holding a single branch with no register
dependences. -/
def progBranchOnly : List Instruction :=
  [create_branch "B0" []]

/-- The engine started on `progBranchOnly` with the standard stages. -/
def pipeBO : Pipeline :=
  Pipeline.init stagesFive progBranchOnly

/-- The state of `pipeBO` under `notTakenForcedTaken` after two cycles:
the predicted-not-taken branch sits in the decode slot about to enter
execute. -/
def stateBO2 : Pipeline :=
  (stepN notTakenForcedTaken pipeBO 2).getD pipeBO

/-- The successor of `stateBO2`: the cycle in which the branch resolves
against its prediction and the front slots are squashed. -/
def stateBO3 : Pipeline :=
  (step notTakenForcedTaken stateBO2).getD pipeBO

/-- A six-stage stage list: one commit stage beyond the standard five. -/
def stagesSix : List String :=
  ["IF", "ID", "EX", "MEM", "WB", "CM"]

theorem getSlot_eq_get? (l : List (Option Entry)) (n : Nat) :
    getSlot l n = l.get? n := by
  induction l generalizing n with
  | nil => cases n <;> simp [getSlot]
  | cons x xs ih => cases n <;> simp [getSlot, ih]

theorem getSlot_isSome (l : List (Option Entry)) (n : Nat)
    (h : n < l.length) : ∃ v, getSlot l n = some v := by
  rw [getSlot_eq_get?]
  exact ⟨l.get ⟨n, h⟩, List.get?_eq_get h⟩

theorem lt_of_getSlot (l : List (Option Entry)) (n : Nat) (v : Option Entry)
    (h : getSlot l n = some v) : n < l.length := by
  rw [getSlot_eq_get?] at h
  exact List.get?_eq_some.mp h |>.1

theorem setSlot_eq_set (l : List (Option Entry)) (n : Nat) (v : Option Entry)
    (h : n < l.length) : setSlot l n v = some (l.set n v) := by
  induction l generalizing n with
  | nil => simp at h
  | cons x xs ih =>
    cases n with
    | zero => simp [setSlot]
    | succ m => simp [setSlot, ih m (by simpa using h)]

theorem snapshot_isSome (regs : List (Option Entry)) (n j : Nat)
    (h : j + n ≤ regs.length) : ∃ ev, snapshot regs j n = some ev := by
  induction n generalizing j with
  | zero => exact ⟨[], rfl⟩
  | succ m ih =>
    obtain ⟨v, hv⟩ := getSlot_isSome regs j (by omega)
    obtain ⟨ev, hev⟩ := ih (j + 1) (by omega)
    exact ⟨_, by rw [snapshot, hv, hev]; rfl⟩

theorem mem_snapshot_stage (regs : List (Option Entry)) (n j : Nat)
    (ev : EventRec) (p : EventKey × String)
    (h : snapshot regs j n = some ev) (hp : p ∈ ev) :
    ∃ i, p.1 = EventKey.stage i := by
  induction n generalizing j ev with
  | zero =>
    rw [snapshot] at h
    cases h
    simp at hp
  | succ m ih =>
    rw [snapshot] at h
    rcases hv : getSlot regs j with _ | v <;> rw [hv] at h
    · cases h
    · rcases hs : snapshot regs (j + 1) m with _ | ev' <;> rw [hs] at h
      · cases h
      · cases h
        rcases List.mem_cons.mp hp with h1 | h1
        · exact ⟨j, by rw [h1]⟩
        · exact ih (j + 1) ev' hs h1

theorem mem_predSlot_pred (P : Predictor) (a : Option Entry)
    (p : EventKey × String) (hp : p ∈ (predSlot P a).2) :
    ∃ i, p.1 = EventKey.pred i ∧ (p.2 = "PRED:T" ∨ p.2 = "PRED:N") := by
  rcases a with _ | e
  · simp [predSlot] at hp
  · simp only [predSlot, applyPredict] at hp
    split at hp
    · rcases List.mem_singleton.mp hp with rfl
      refine ⟨e.1, rfl, ?_⟩
      split <;> simp
    · simp at hp

theorem mem_resolveBranch_key (P : Predictor) (e : Entry)
    (p : EventKey × String) (hp : p ∈ (resolveBranch P e).2.1) :
    p.1 = EventKey.branch e.1 := by
  simp only [resolveBranch] at hp
  split at hp
  · split at hp <;>
    · rcases List.mem_singleton.mp hp with rfl; rfl
  · simp at hp

theorem step_stall_eval (P : Predictor) (s s' : Pipeline)
    (a0 a1 a2 a3 a4 : Option Entry) (rest : List (Option Entry))
    (hreg : s.pipeline_regs = a0 :: a1 :: a2 :: a3 :: a4 :: rest)
    (hst : stallCond a1 a2 = true)
    (hstep : step P s = some s') :
    ∃ ev, snapshot (stallRegs P a0 a1 a2 a3 rest) 0 s.stages.length = some ev ∧
      s' = { stages := s.stages
             instr_queue := s.instr_queue
             pipeline_regs := stallRegs P a0 a1 a2 a3 rest
             cycle := s.cycle + 1
             stalls := s.stalls + 1
             flushed := s.flushed
             timeline := s.timeline ++
               [(predSlot P a1).2 ++
                 [(EventKey.stall (s.cycle + 1), "DATA_STALL")] ++ ev] } := by
  rcases a1 with _ | e1
  · simp [stallCond] at hst
  · rcases a2 with _ | e2
    · simp [stallCond] at hst
    · rw [step] at hstep
      simp only [stallCond] at hst
      simp only [hreg, getSlot, setSlot, stallCond, hst, Option.map_some',
        Option.some_bind, if_true, Option.bind_eq_bind] at hstep
      rcases Option.bind_eq_some.mp hstep with ⟨ev, hev, heq⟩
      refine ⟨ev, ?_, ?_⟩
      · simpa [stallRegs, predSlot] using hev
      · cases Option.some.inj heq
        simp [stallRegs, predSlot]

set_option maxHeartbeats 2000000 in
theorem step_normal_eval (P : Predictor) (s s' : Pipeline)
    (a0 a1 a2 a3 a4 : Option Entry) (rest : List (Option Entry))
    (hreg : s.pipeline_regs = a0 :: a1 :: a2 :: a3 :: a4 :: rest)
    (hst : stallCond a1 a2 = false)
    (hstep : step P s = some s') :
    ∃ ev,
      snapshot (normalCore P s.instr_queue s.timeline.length
          a0 a1 a2 a3 rest).1 0 s.stages.length = some ev ∧
      s' = { stages := s.stages
             instr_queue := (normalCore P s.instr_queue s.timeline.length
               a0 a1 a2 a3 rest).2.1
             pipeline_regs := (normalCore P s.instr_queue s.timeline.length
               a0 a1 a2 a3 rest).1
             cycle := s.cycle + 1
             stalls := s.stalls
             flushed := s.flushed + (normalCore P s.instr_queue
               s.timeline.length a0 a1 a2 a3 rest).2.2.1
             timeline := s.timeline ++
               [(predSlot P a1).2 ++ (normalCore P s.instr_queue
                 s.timeline.length a0 a1 a2 a3 rest).2.2.2 ++ ev] } := by
  rw [step] at hstep
  rcases hq : s.instr_queue with _ | ⟨i, q⟩
  · rcases a1 with _ | e1
    · simp only [hq, hreg, getSlot, setSlot, Option.map_some', Option.some_bind,
        Option.bind_eq_bind, hst, Bool.false_eq_true, if_false] at hstep
      rcases Option.bind_eq_some.mp hstep with ⟨ev, hev, heq⟩
      cases Option.some.inj heq
      refine ⟨ev, ?_, ?_⟩ <;>
        simp only [normalCore, predSlot, fetchSlot, List.set, hq,
          List.nil_append, List.append_nil, List.append_assoc] <;>
        first
          | exact hev
          | rfl
    · simp only [hq, hreg, getSlot, setSlot, Option.map_some', Option.some_bind,
        Option.bind_eq_bind, hst, Bool.false_eq_true, if_false] at hstep
      rcases Option.bind_eq_some.mp hstep with ⟨ev, hev, heq⟩
      cases Option.some.inj heq
      refine ⟨ev, ?_, ?_⟩ <;>
        simp only [normalCore, predSlot, fetchSlot, List.set, hq,
          List.nil_append, List.append_nil, List.append_assoc] <;>
        first
          | simpa using hev
          | simp
  · rcases a1 with _ | e1
    · simp only [hq, hreg, getSlot, setSlot, Option.map_some', Option.some_bind,
        Option.bind_eq_bind, hst, Bool.false_eq_true, if_false] at hstep
      rcases Option.bind_eq_some.mp hstep with ⟨ev, hev, heq⟩
      cases Option.some.inj heq
      refine ⟨ev, ?_, ?_⟩ <;>
        simp only [normalCore, predSlot, fetchSlot, List.set, hq,
          List.nil_append, List.append_nil, List.append_assoc] <;>
        first
          | simpa using hev
          | simp
    · simp only [hq, hreg, getSlot, setSlot, Option.map_some', Option.some_bind,
        Option.bind_eq_bind, hst, Bool.false_eq_true, if_false] at hstep
      rcases Option.bind_eq_some.mp hstep with ⟨ev, hev, heq⟩
      cases Option.some.inj heq
      refine ⟨ev, ?_, ?_⟩ <;>
        simp only [normalCore, predSlot, fetchSlot, List.set, hq,
          List.nil_append, List.append_nil, List.append_assoc] <;>
        first
          | simpa using hev
          | simp


theorem setSlot_lt (l : List (Option Entry)) (n : Nat) (v : Option Entry)
    (l' : List (Option Entry)) (h : setSlot l n v = some l') : n < l.length := by
  induction l generalizing n l' with
  | nil => simp [setSlot] at h
  | cons x xs ih =>
    cases n with
    | zero => simp
    | succ m =>
      simp only [setSlot, Option.map_eq_some'] at h
      obtain ⟨ys, hys, _⟩ := h
      have := ih m ys hys
      simp
      omega

theorem setSlot_length (l : List (Option Entry)) (n : Nat) (v : Option Entry)
    (l' : List (Option Entry)) (h : setSlot l n v = some l') :
    l'.length = l.length := by
  induction l generalizing n l' with
  | nil => simp [setSlot] at h
  | cons x xs ih =>
    cases n with
    | zero =>
      simp only [setSlot] at h
      cases h
      rfl
    | succ m =>
      simp only [setSlot, Option.map_eq_some'] at h
      obtain ⟨ys, hys, hh⟩ := h
      cases hh
      simp [ih m ys hys]

theorem step_regs_five (P : Predictor) (s s' : Pipeline)
    (hstep : step P s = some s') : 5 ≤ s.pipeline_regs.length := by
  rw [step] at hstep
  obtain ⟨v1, h1, hstep⟩ := Option.bind_eq_some.mp hstep
  try simp only [] at hstep
  obtain ⟨v2, h2, hstep⟩ := Option.bind_eq_some.mp hstep
  try simp only [] at hstep
  split at hstep
  · obtain ⟨pr, hpr, hstep⟩ := Option.bind_eq_some.mp hstep
    obtain ⟨r1, hr1, hpr⟩ := Option.map_eq_some'.mp hpr
    cases hpr
    have hlen : r1.length = s.pipeline_regs.length := setSlot_length _ _ _ _ hr1
    try simp only [] at hstep
    split at hstep
    · obtain ⟨v3, h3, hstep⟩ := Option.bind_eq_some.mp hstep
      try simp only [] at hstep
      obtain ⟨r2, h4, hstep⟩ := Option.bind_eq_some.mp hstep
      have := setSlot_lt _ _ _ _ h4
      omega
    · obtain ⟨v3, h3, hstep⟩ := Option.bind_eq_some.mp hstep
      try simp only [] at hstep
      obtain ⟨r2, h4, hstep⟩ := Option.bind_eq_some.mp hstep
      have := setSlot_lt _ _ _ _ h4
      omega
  · obtain ⟨pr, hpr, hstep⟩ := Option.bind_eq_some.mp hstep
    cases Option.some.inj hpr
    try simp only [] at hstep
    split at hstep
    · obtain ⟨v3, h3, hstep⟩ := Option.bind_eq_some.mp hstep
      try simp only [] at hstep
      obtain ⟨r2, h4, hstep⟩ := Option.bind_eq_some.mp hstep
      have := setSlot_lt _ _ _ _ h4
      omega
    · obtain ⟨v3, h3, hstep⟩ := Option.bind_eq_some.mp hstep
      try simp only [] at hstep
      obtain ⟨r2, h4, hstep⟩ := Option.bind_eq_some.mp hstep
      have := setSlot_lt _ _ _ _ h4
      omega

theorem shape_of_length (l : List (Option Entry)) (h : 5 ≤ l.length) :
    ∃ a0 a1 a2 a3 a4 rest, l = a0 :: a1 :: a2 :: a3 :: a4 :: rest := by
  rcases l with _ | ⟨a0, _ | ⟨a1, _ | ⟨a2, _ | ⟨a3, _ | ⟨a4, rest⟩⟩⟩⟩⟩ <;>
    first
      | exact ⟨_, _, _, _, _, _, rfl⟩
      | simp at h

theorem step_shape (P : Predictor) (s s' : Pipeline)
    (hstep : step P s = some s') :
    ∃ a0 a1 a2 a3 a4 rest,
      s.pipeline_regs = a0 :: a1 :: a2 :: a3 :: a4 :: rest :=
  shape_of_length _ (step_regs_five P s s' hstep)

theorem squash01_length (regs : List (Option Entry)) :
    (squash01 regs).length = regs.length := by
  unfold squash01
  rcases h0 : getSlot regs 0 with _ | v0
  · rcases h1 : getSlot regs 1 with _ | v1 <;> simp [h0, h1]
    rcases v1 with _ | e1 <;> simp [List.length_set]
  · rcases v0 with _ | e0
    · rcases h1 : getSlot regs 1 with _ | v1 <;> simp [h0, h1]
      rcases v1 with _ | e1 <;> simp [List.length_set]
    · have h1' : getSlot (regs.set 0 none) 1 = getSlot regs 1 := by
        rw [getSlot_eq_get?, getSlot_eq_get?, List.get?_set_ne]
        omega
      rcases h1 : getSlot regs 1 with _ | v1 <;>
        simp [h0, h1, h1', List.length_set]
      rcases v1 with _ | e1 <;> simp [List.length_set]

set_option maxHeartbeats 2000000 in
theorem step_total (P : Predictor) (s : Pipeline)
    (a0 a1 a2 a3 a4 : Option Entry) (rest : List (Option Entry))
    (hreg : s.pipeline_regs = a0 :: a1 :: a2 :: a3 :: a4 :: rest)
    (hsn : s.stages.length ≤ 5 + rest.length) :
    ∃ s', step P s = some s' := by
  rw [step]
  rcases hc : stallCond a1 a2
  · rcases hq : s.instr_queue with _ | ⟨i, q⟩ <;> rcases a1 with _ | e1
    · simp only [hq, hreg, getSlot, setSlot, Option.map_some', Option.some_bind,
        Option.bind_eq_bind, hc, Bool.false_eq_true, if_false]
      obtain ⟨ev, hev⟩ := snapshot_isSome
        (none :: a0 :: none :: a2 :: a3 :: rest) s.stages.length 0
        (by simp; omega)
      rw [hev]
      exact ⟨_, rfl⟩
    · simp only [hq, hreg, getSlot, setSlot, Option.map_some', Option.some_bind,
        Option.bind_eq_bind, hc, Bool.false_eq_true, if_false]
      rcases hr : resolveBranch P (applyPredict P e1).1 with ⟨e2, evB, df, sq⟩
      simp only [hr]
      have hlen : (if sq = true then
          squash01 ((none :: a0 :: some (applyPredict P e1).1 :: a2 :: a3 ::
            rest).set 2 (some e2))
        else (none :: a0 :: some (applyPredict P e1).1 :: a2 :: a3 ::
            rest).set 2 (some e2)).length = 5 + rest.length := by
        split <;> simp [squash01_length, List.length_set] <;> omega
      obtain ⟨ev, hev⟩ := snapshot_isSome _ s.stages.length 0
        (by rw [hlen]; omega)
      rw [hev]
      exact ⟨_, rfl⟩
    · simp only [hq, hreg, getSlot, setSlot, Option.map_some', Option.some_bind,
        Option.bind_eq_bind, hc, Bool.false_eq_true, if_false]
      obtain ⟨ev, hev⟩ := snapshot_isSome
        (some (s.timeline.length, i) :: a0 :: none :: a2 :: a3 :: rest)
        s.stages.length 0 (by simp; omega)
      rw [hev]
      exact ⟨_, rfl⟩
    · simp only [hq, hreg, getSlot, setSlot, Option.map_some', Option.some_bind,
        Option.bind_eq_bind, hc, Bool.false_eq_true, if_false]
      rcases hr : resolveBranch P (applyPredict P e1).1 with ⟨e2, evB, df, sq⟩
      simp only [hr]
      have hlen : (if sq = true then
          squash01 ((some (s.timeline.length, i) :: a0 ::
            some (applyPredict P e1).1 :: a2 :: a3 :: rest).set 2 (some e2))
        else (some (s.timeline.length, i) :: a0 ::
            some (applyPredict P e1).1 :: a2 :: a3 :: rest).set 2
            (some e2)).length = 5 + rest.length := by
        split <;> simp [squash01_length, List.length_set] <;> omega
      obtain ⟨ev, hev⟩ := snapshot_isSome _ s.stages.length 0
        (by rw [hlen]; omega)
      rw [hev]
      exact ⟨_, rfl⟩
  · rcases a1 with _ | e1
    · simp [stallCond] at hc
    · rcases a2 with _ | e2
      · simp [stallCond] at hc
      · simp only [stallCond] at hc
        simp only [hreg, getSlot, setSlot, stallCond, hc, Option.map_some',
          Option.some_bind, if_true, Option.bind_eq_bind]
        obtain ⟨ev, hev⟩ := snapshot_isSome
          (a0 :: some (applyPredict P e1).1 :: none :: some e2 :: a3 :: rest)
          s.stages.length 0 (by simp; omega)
        rw [hev]
        exact ⟨_, rfl⟩

theorem stallRegs_length (P : Predictor) (a0 a1 a2 a3 : Option Entry)
    (rest : List (Option Entry)) :
    (stallRegs P a0 a1 a2 a3 rest).length = 5 + rest.length := by
  simp [stallRegs]
  omega

theorem normalCore_length (P : Predictor) (q : List Instruction) (tl : Nat)
    (a0 a1 a2 a3 : Option Entry) (rest : List (Option Entry)) :
    (normalCore P q tl a0 a1 a2 a3 rest).1.length = 5 + rest.length := by
  unfold normalCore
  rcases hp : (predSlot P a1).1 with _ | e
  · simp [hp]
    omega
  · simp only [hp]
    rcases hr : resolveBranch P e with ⟨e2, evB, df, sq⟩
    rcases sq <;>
      simp [squash01_length, List.length_set] <;> omega

theorem lastRec_concat (s : Pipeline) (tl : List EventRec) (r : EventRec)
    (h : s.timeline = tl ++ [r]) : lastRec s = r := by
  simp [lastRec, h, List.getLastD_concat]

theorem applyPredict_idx (P : Predictor) (e : Entry) :
    (applyPredict P e).1.1 = e.1 := by
  unfold applyPredict
  split <;> rfl

theorem squash01_first_two (x y : Option Entry) (l : List (Option Entry)) :
    squash01 (x :: y :: l) = none :: none :: l := by
  rcases x with _ | a <;> rcases y with _ | b <;>
    simp [squash01, getSlot, List.set]

theorem getSlot_cons5 (x0 x1 x2 x3 x4 : Option Entry)
    (l : List (Option Entry)) (k : Nat) :
    getSlot (x0 :: x1 :: x2 :: x3 :: x4 :: l) (k + 5) = getSlot l k := rfl

theorem resolveBranch_mispredict (P : Predictor) (e : Entry)
    (hbr : e.2.is_branch = true)
    (hmis : e.2.predicted_taken ≠ some (P.actual_outcome e.2)) :
    resolveBranch P e =
      (⟨e.1, { e.2 with actual_taken := some (P.actual_outcome e.2) }⟩,
        [(EventKey.branch e.1, "MISPREDICT")], 1, true) := by
  unfold resolveBranch
  simp [hbr, hmis]

theorem normalCore_mispredict (P : Predictor) (q : List Instruction)
    (tl : Nat) (e1 : Entry) (a0 a2 a3 : Option Entry)
    (rest : List (Option Entry))
    (hbr : (applyPredict P e1).1.2.is_branch = true)
    (hmis : (applyPredict P e1).1.2.predicted_taken ≠
      some (P.actual_outcome (applyPredict P e1).1.2)) :
    normalCore P q tl a0 (some e1) a2 a3 rest =
      (none :: none :: some (resolveBranch P (applyPredict P e1).1).1 ::
          a2 :: a3 :: rest,
        (fetchSlot q tl).2, 1,
        [(EventKey.branch e1.1, "MISPREDICT")]) := by
  unfold normalCore
  simp only [predSlot]
  rw [resolveBranch_mispredict P (applyPredict P e1).1 hbr hmis]
  dsimp only
  simp [List.set, squash01_first_two, applyPredict_idx]

theorem mem_normalCore_key (P : Predictor) (q : List Instruction) (tl : Nat)
    (a0 a1 a2 a3 : Option Entry) (rest : List (Option Entry))
    (p : EventKey × String)
    (hp : p ∈ (normalCore P q tl a0 a1 a2 a3 rest).2.2.2) :
    ∃ i, p.1 = EventKey.branch i := by
  unfold normalCore at hp
  rcases hps : (predSlot P a1).1 with _ | e
  · simp only [hps] at hp
    simp at hp
  · simp only [hps] at hp
    rcases hr : resolveBranch P e with ⟨e2, evB, df, sq⟩
    simp only [hr] at hp
    have hp' : p ∈ (resolveBranch P e).2.1 := by
      rw [hr]
      exact hp
    exact ⟨e.1, mem_resolveBranch_key P e p hp'⟩

theorem stall_and_mispredict_exclusive (P : Predictor) (s s' : Pipeline)
    (hstep : step P s = some s') :
    ¬((∃ c, (EventKey.stall c, "DATA_STALL") ∈ lastRec s') ∧
      (∃ i, (EventKey.branch i, "MISPREDICT") ∈ lastRec s')) := by
  rintro ⟨⟨c, hc⟩, ⟨i, hi⟩⟩
  obtain ⟨a0, a1, a2, a3, a4, rest, hreg⟩ := step_shape P s s' hstep
  rcases hsc : stallCond a1 a2
  · obtain ⟨ev, hev, hs'⟩ :=
      step_normal_eval P s s' a0 a1 a2 a3 a4 rest hreg hsc hstep
    subst hs'
    rw [lastRec_concat _ s.timeline _ rfl] at hc
    rcases List.mem_append.mp hc with hc1 | hc1
    · rcases List.mem_append.mp hc1 with hc2 | hc2
      · obtain ⟨k, hk, _⟩ := mem_predSlot_pred P a1 _ hc2
        exact EventKey.noConfusion hk
      · obtain ⟨k, hk⟩ := mem_normalCore_key P s.instr_queue
          s.timeline.length a0 a1 a2 a3 rest _ hc2
        exact EventKey.noConfusion hk
    · obtain ⟨k, hk⟩ := mem_snapshot_stage _ _ _ _ _ hev hc1
      exact EventKey.noConfusion hk
  · obtain ⟨ev, hev, hs'⟩ :=
      step_stall_eval P s s' a0 a1 a2 a3 a4 rest hreg hsc hstep
    subst hs'
    rw [lastRec_concat _ s.timeline _ rfl] at hi
    rcases List.mem_append.mp hi with hi1 | hi1
    · rcases List.mem_append.mp hi1 with hi2 | hi2
      · obtain ⟨k, hk, _⟩ := mem_predSlot_pred P a1 _ hi2
        exact EventKey.noConfusion hk
      · rcases List.mem_singleton.mp hi2 with h
        exact EventKey.noConfusion (congrArg Prod.fst h)
    · obtain ⟨k, hk⟩ := mem_snapshot_stage _ _ _ _ _ hev hi1
      exact EventKey.noConfusion hk

theorem step_appends_one_record (P : Predictor) (s s' : Pipeline)
    (hstep : step P s = some s') :
    (∃ rec, s'.timeline = s.timeline ++ [rec]) ∧ s'.cycle = s.cycle + 1 := by
  obtain ⟨a0, a1, a2, a3, a4, rest, hreg⟩ := step_shape P s s' hstep
  rcases hsc : stallCond a1 a2
  · obtain ⟨ev, hev, hs'⟩ :=
      step_normal_eval P s s' a0 a1 a2 a3 a4 rest hreg hsc hstep
    subst hs'
    exact ⟨⟨_, rfl⟩, rfl⟩
  · obtain ⟨ev, hev, hs'⟩ :=
      step_stall_eval P s s' a0 a1 a2 a3 a4 rest hreg hsc hstep
    subst hs'
    exact ⟨⟨_, rfl⟩, rfl⟩

theorem stepN_timeline_le (P : Predictor) (n : Nat) :
    ∀ s t : Pipeline, stepN P s n = some t →
      s.timeline.length + n ≤ t.timeline.length := by
  induction n with
  | zero =>
    intro s t h
    cases h
    omega
  | succ m ih =>
    intro s t h
    rw [stepN] at h
    rcases hs : step P s with _ | s2 <;> rw [hs] at h
    · exact Option.noConfusion h
    · obtain ⟨⟨rec, hrec⟩, _⟩ := step_appends_one_record P s s2 hs
      have h2 := ih s2 t h
      rw [hrec] at h2
      simp at h2
      omega

theorem fetchesIdx_eq_timeline (s : Pipeline) (i : Nat)
    (h : fetchesIdx s = some i) : i = s.timeline.length := by
  unfold fetchesIdx at h
  split at h
  · split at h
    · exact Option.noConfusion h
    · split at h
      · exact Option.noConfusion h
      · exact (Option.some.inj h).symm
  · exact Option.noConfusion h

theorem stepN_timeline_cycle (P : Predictor) (n : Nat) :
    ∀ s t : Pipeline, s.timeline.length = s.cycle →
      stepN P s n = some t → t.timeline.length = t.cycle := by
  induction n with
  | zero =>
    intro s t h0 h
    cases h
    exact h0
  | succ m ih =>
    intro s t h0 h
    rw [stepN] at h
    rcases hs : step P s with _ | s2 <;> rw [hs] at h
    · exact Option.noConfusion h
    · obtain ⟨⟨rec, hrec⟩, hcyc⟩ := step_appends_one_record P s s2 hs
      refine ih s2 t ?_ h
      rw [hrec, hcyc]
      simp [h0]

/-- C1 (counterexample): a reachable state in which the decode slot holds
an unpredicted branch that reads a register written by the execute-slot
load satisfies the claim's hazard precondition, yet the stall cycle does
not leave slot 1 unchanged: the prediction phase sets the decode-slot
branch's `predicted_taken` field in the same call. -/
theorem stall_cycle_repredicts_decode_slot :
    stepN notTakenQuiet pipeLB 3 = some stateLB3 ∧
    step notTakenQuiet stateLB3 = some stateLB4 ∧
    getSlot stateLB3.pipeline_regs 1 =
      some (some (1, create_branch "BR" ["R1"])) ∧
    getSlot stateLB3.pipeline_regs 2 =
      some (some (0, create_load "LD" "R1")) ∧
    detect_data_hazard (create_branch "BR" ["R1"])
      (some (create_load "LD" "R1")) = true ∧
    getSlot stateLB4.pipeline_regs 1 ≠ getSlot stateLB3.pipeline_regs 1 := by
  refine ⟨by decide, by decide, by decide, by decide, by decide, by decide⟩

/-- C1 (amended): in any five-slot state whose decode and execute slots
are occupied with a data hazard between them, one `step` increments the
stall counter, records a stall event, leaves slot 0 and the backlog
unchanged, keeps the slot-1 occupant in place (same index, same
instruction except that `predicted_taken` may be set by the prediction
phase when the occupant is an unpredicted branch), empties slot 2, and
moves the old slot-2 and slot-3 occupants into slots 3 and 4. -/
theorem stall_cycle_effects (P : Predictor) (s s' : Pipeline)
    (e1 e2 : Entry) (a0 a3 a4 : Option Entry) (rest : List (Option Entry))
    (hreg : s.pipeline_regs = a0 :: some e1 :: some e2 :: a3 :: a4 :: rest)
    (hz : detect_data_hazard e1.2 (some e2.2) = true)
    (hstep : step P s = some s') :
    s'.stalls = s.stalls + 1 ∧
    (EventKey.stall s'.cycle, "DATA_STALL") ∈ lastRec s' ∧
    s'.instr_queue = s.instr_queue ∧
    getSlot s'.pipeline_regs 0 = some a0 ∧
    (∃ b1 : Instruction, getSlot s'.pipeline_regs 1 = some (some (e1.1, b1)) ∧
      b1.name = e1.2.name ∧ b1.reads = e1.2.reads ∧
      b1.writes = e1.2.writes ∧ b1.is_branch = e1.2.is_branch ∧
      b1.actual_taken = e1.2.actual_taken ∧
      (b1.predicted_taken = e1.2.predicted_taken ∨
        (e1.2.predicted_taken = none ∧ e1.2.is_branch = true ∧
          b1.predicted_taken = some (P.predict e1.2)))) ∧
    getSlot s'.pipeline_regs 2 = some none ∧
    getSlot s'.pipeline_regs 3 = some (some e2) ∧
    getSlot s'.pipeline_regs 4 = some a3 ∧
    s'.cycle = s.cycle + 1 := by
  have hc : stallCond (some e1) (some e2) = true := by
    simp [stallCond, hz]
  obtain ⟨ev, hev, hs'⟩ :=
    step_stall_eval P s s' a0 (some e1) (some e2) a3 a4 rest hreg hc hstep
  subst hs'
  dsimp only
  have hrec : lastRec ⟨s.stages, s.instr_queue,
      stallRegs P a0 (some e1) (some e2) a3 rest, s.cycle + 1, s.stalls + 1,
      s.flushed, s.timeline ++
        [(predSlot P (some e1)).2 ++
          [(EventKey.stall (s.cycle + 1), "DATA_STALL")] ++ ev]⟩ =
      (predSlot P (some e1)).2 ++
        [(EventKey.stall (s.cycle + 1), "DATA_STALL")] ++ ev :=
    lastRec_concat _ s.timeline _ rfl
  refine ⟨rfl, ?_, rfl, rfl, ?_, rfl, rfl, rfl, rfl⟩
  · rw [hrec]
    apply List.mem_append_left
    apply List.mem_append_right
    simp
  · refine ⟨(applyPredict P e1).1.2, ?_, ?_⟩
    · have hpair : (applyPredict P e1).1 =
          (e1.1, (applyPredict P e1).1.2) :=
        Prod.ext (applyPredict_idx P e1) rfl
      rw [← hpair]
      simp [stallRegs, getSlot, predSlot]
    · unfold applyPredict
      rcases hb : (e1.2.is_branch && e1.2.predicted_taken.isNone) with _ | _
      · simp [hb]
      · have hb' := hb
        simp only [Bool.and_eq_true, Option.isNone_iff_eq_none] at hb'
        simp [hb, hb']

/-- C1 (witness): the amended stall description evaluated on the
concrete reachable state `stateLB3`. -/
theorem stall_cycle_effects_witness :
    stateLB4.stalls = stateLB3.stalls + 1 ∧
    (EventKey.stall stateLB4.cycle, "DATA_STALL") ∈ lastRec stateLB4 ∧
    stateLB4.instr_queue = stateLB3.instr_queue ∧
    getSlot stateLB4.pipeline_regs 0 = some none ∧
    (∃ b1 : Instruction, getSlot stateLB4.pipeline_regs 1 =
      some (some ((1 : Nat), b1)) ∧
      b1.name = (create_branch "BR" ["R1"]).name ∧
      b1.reads = (create_branch "BR" ["R1"]).reads ∧
      b1.writes = (create_branch "BR" ["R1"]).writes ∧
      b1.is_branch = (create_branch "BR" ["R1"]).is_branch ∧
      b1.actual_taken = (create_branch "BR" ["R1"]).actual_taken ∧
      (b1.predicted_taken = (create_branch "BR" ["R1"]).predicted_taken ∨
        ((create_branch "BR" ["R1"]).predicted_taken = none ∧
          (create_branch "BR" ["R1"]).is_branch = true ∧
          b1.predicted_taken =
            some (notTakenQuiet.predict (create_branch "BR" ["R1"]))))) ∧
    getSlot stateLB4.pipeline_regs 2 = some none ∧
    getSlot stateLB4.pipeline_regs 3 =
      some (some (0, create_load "LD" "R1")) ∧
    getSlot stateLB4.pipeline_regs 4 = some none ∧
    stateLB4.cycle = stateLB3.cycle + 1 :=
  stall_cycle_effects notTakenQuiet stateLB3 stateLB4
    (1, create_branch "BR" ["R1"]) (0, create_load "LD" "R1")
    none none none [] (by decide) (by decide) (by decide)

/-- C2: whenever the post-shift execute-slot occupant (the predicted
decode-slot occupant of a non-stalled cycle) is a branch whose resolved
actual outcome differs from its stored prediction, the step increments
the flush counter, records a misprediction event keyed to the branch's
program-order index, empties slots 0 and 1, and leaves the backlog equal
to the post-fetch backlog (squashed instructions are not re-queued). -/
theorem mispredict_squash (P : Predictor) (s s' : Pipeline) (e1 : Entry)
    (a0 a2 a3 a4 : Option Entry) (rest : List (Option Entry))
    (hreg : s.pipeline_regs = a0 :: some e1 :: a2 :: a3 :: a4 :: rest)
    (hnostall : stallCond (some e1) a2 = false)
    (hbr : (applyPredict P e1).1.2.is_branch = true)
    (hmis : (applyPredict P e1).1.2.predicted_taken ≠
      some (P.actual_outcome (applyPredict P e1).1.2))
    (hstep : step P s = some s') :
    s'.flushed = s.flushed + 1 ∧
    (EventKey.branch e1.1, "MISPREDICT") ∈ lastRec s' ∧
    getSlot s'.pipeline_regs 0 = some none ∧
    getSlot s'.pipeline_regs 1 = some none ∧
    s'.instr_queue = s.instr_queue.drop 1 := by
  obtain ⟨ev, hev, hs'⟩ :=
    step_normal_eval P s s' a0 (some e1) a2 a3 a4 rest hreg hnostall hstep
  subst hs'
  rw [normalCore_mispredict P s.instr_queue s.timeline.length e1 a0 a2 a3
    rest hbr hmis]
  dsimp only
  refine ⟨rfl, ?_, rfl, rfl, ?_⟩
  · have hrec := lastRec_concat ⟨s.stages,
      (fetchSlot s.instr_queue s.timeline.length).2,
      none :: none :: some (resolveBranch P (applyPredict P e1).1).1 ::
        a2 :: a3 :: rest,
      s.cycle + 1, s.stalls, s.flushed + 1, s.timeline ++
        [(predSlot P (some e1)).2 ++
          [(EventKey.branch e1.1, "MISPREDICT")] ++ ev]⟩ s.timeline
      ((predSlot P (some e1)).2 ++
        [(EventKey.branch e1.1, "MISPREDICT")] ++ ev) rfl
    rw [hrec]
    apply List.mem_append_left
    apply List.mem_append_right
    simp
  · rcases s.instr_queue with _ | ⟨i, q⟩ <;> simp [fetchSlot]

/-- C2 (witness): the misprediction squash evaluated on the concrete
reachable state `stateBO2`, whose decode-slot branch is predicted not
taken while the forced ground truth is taken. -/
theorem mispredict_squash_witness :
    stateBO3.flushed = stateBO2.flushed + 1 ∧
    (EventKey.branch 0, "MISPREDICT") ∈ lastRec stateBO3 ∧
    getSlot stateBO3.pipeline_regs 0 = some none ∧
    getSlot stateBO3.pipeline_regs 1 = some none ∧
    stateBO3.instr_queue = stateBO2.instr_queue.drop 1 :=
  mispredict_squash notTakenForcedTaken stateBO2 stateBO3
    (0, create_branch "B0" []) none none none none []
    (by decide) (by decide) (by decide) (by decide) (by decide)

/-- C3 (counterexample): the claimed coexistence of a stall event and a
misprediction event in one cycle's record is impossible: the proposition
`StallAndMispredictTogether` is false, because a stalled cycle bubbles
slot 2 to empty before branch resolution inspects it. -/
theorem stall_and_mispredict_never_together :
    ¬ StallAndMispredictTogether := by
  rintro ⟨P, stages, instrs, s, s', hre, hstep, hst, hmp⟩
  exact stall_and_mispredict_exclusive P s s' hstep ⟨hst, hmp⟩

/-- C3 (amended): in no call to `step` does the appended event record
contain both a `DATA_STALL` event and a `MISPREDICT` event: the hazard
check uses the pre-shift slot 2, but a stall empties slot 2 before the
post-shift branch resolution, so the two events are mutually
exclusive. -/
theorem no_cycle_has_stall_and_mispredict (P : Predictor) (s s' : Pipeline)
    (hstep : step P s = some s') :
    ¬((∃ c, (EventKey.stall c, "DATA_STALL") ∈ lastRec s') ∧
      (∃ i, (EventKey.branch i, "MISPREDICT") ∈ lastRec s')) :=
  stall_and_mispredict_exclusive P s s' hstep

/-- C3 (witness): the mutual exclusion evaluated on the concrete stall
cycle from `stateLB3` to `stateLB4`. -/
theorem no_cycle_has_stall_and_mispredict_witness :
    ¬((∃ c, (EventKey.stall c, "DATA_STALL") ∈ lastRec stateLB4) ∧
      (∃ i, (EventKey.branch i, "MISPREDICT") ∈ lastRec stateLB4)) :=
  no_cycle_has_stall_and_mispredict notTakenQuiet stateLB3 stateLB4
    (by decide)

/-- C4 (counterexample): a complete run of a straight-line program with
one data hazard assigns the program-order indices 0, 1, 2, 4 — a gap at
index 3 — while its flush counter stays 0 throughout and it finishes, so
no fetched instruction is ever squashed: the gap is caused by the stall
cycle, not by a squash. -/
theorem stall_gap_with_no_squash :
    ((List.range 10).map
      (fun n => (stepN notTakenQuiet pipeSNB n).bind fetchesIdx) =
      [some 0, some 1, some 2, none, some 4, none, none, none, none, none]) ∧
    ((List.range 11).all (fun n =>
      match stepN notTakenQuiet pipeSNB n with
      | some u => u.flushed = 0
      | none => false) = true) ∧
    (stepN notTakenQuiet pipeSNB 10).map Pipeline.is_done = some true := by
  refine ⟨by decide, by decide, by decide⟩

/-- C4 (amended): program-order indices strictly increase across
successive fetch events (so no index is ever assigned twice), and a
stalled cycle fetches nothing — which is what creates gaps in the
assigned index sequence, independent of squashes. -/
theorem fetch_indices_strictly_increase (P : Predictor) (s t : Pipeline)
    (k i j : Nat) (hi : fetchesIdx s = some i)
    (hrun : stepN P s (k + 1) = some t) (hj : fetchesIdx t = some j) :
    i < j ∧
    ∀ (u : Pipeline) (e1 e2 : Entry),
      getSlot u.pipeline_regs 1 = some (some e1) →
      getSlot u.pipeline_regs 2 = some (some e2) →
      detect_data_hazard e1.2 (some e2.2) = true → fetchesIdx u = none := by
  constructor
  · have h1 := fetchesIdx_eq_timeline s i hi
    have h2 := fetchesIdx_eq_timeline t j hj
    have h3 := stepN_timeline_le P (k + 1) s t hrun
    omega
  · intro u e1 e2 h1 h2 hz
    unfold fetchesIdx
    rw [h1, h2]
    simp [stallCond, hz]

/-- C4 (witness): strict index increase across the first two fetches of
a concrete run. -/
theorem fetch_indices_strictly_increase_witness :
    ((0 : Nat) < 1 ∧
      ∀ (u : Pipeline) (e1 e2 : Entry),
        getSlot u.pipeline_regs 1 = some (some e1) →
        getSlot u.pipeline_regs 2 = some (some e2) →
        detect_data_hazard e1.2 (some e2.2) = true →
        fetchesIdx u = none) :=
  fetch_indices_strictly_increase notTakenQuiet pipeSNB
    ((stepN notTakenQuiet pipeSNB 1).getD pipeSNB) 0 0 1
    (by decide) (by decide) (by decide)

/-- C5 (counterexample): with a three-stage list the very first call to
`step` performs an out-of-range slot access (the stage shift writes
slot 4 unconditionally), modelled as `step` returning `none`. -/
theorem three_stage_step_raises :
    step notTakenQuiet (Pipeline.init ["IF", "ID", "EX"] sample_program) =
      none := by decide

/-- C5 (amended): the engine needs at least five slots, not three: when
the slot list has length at least 5 (and at least as many slots as
stages, as construction guarantees), `step` completes without error, but
the stage shift only moves occupants through slots 0-4 — every slot
beyond index 4 is left untouched, so instructions fall off slot 4 rather
than the final stage. -/
theorem step_works_iff_five_slots (P : Predictor) (s : Pipeline)
    (h5 : 5 ≤ s.pipeline_regs.length)
    (hsn : s.stages.length ≤ s.pipeline_regs.length) :
    (∃ s', step P s = some s') ∧
    ∀ s', step P s = some s' → ∀ j, 5 ≤ j →
      getSlot s'.pipeline_regs j = getSlot s.pipeline_regs j := by
  obtain ⟨a0, a1, a2, a3, a4, rest, hreg⟩ := shape_of_length _ h5
  have hlen : s.pipeline_regs.length = 5 + rest.length := by simp [hreg]; omega
  constructor
  · exact step_total P s a0 a1 a2 a3 a4 rest hreg (by omega)
  · intro s' hstep j hj
    obtain ⟨k, rfl⟩ : ∃ k, j = k + 5 := ⟨j - 5, by omega⟩
    rcases hc : stallCond a1 a2
    · obtain ⟨ev, hev, hs'⟩ :=
        step_normal_eval P s s' a0 a1 a2 a3 a4 rest hreg hc hstep
      rw [hs', hreg]
      simp only [getSlot_cons5]
      unfold normalCore
      rcases hp : (predSlot P a1).1 with _ | e
      · simp only [hp]
        rfl
      · simp only [hp]
        rcases hr : resolveBranch P e with ⟨e2, evB, df, sq⟩
        rcases sq
        · simp only [Bool.false_eq_true, if_false, List.set]
          rfl
        · simp only [if_true, List.set]
          rw [squash01_first_two]
          rfl
    · obtain ⟨ev, hev, hs'⟩ :=
        step_stall_eval P s s' a0 a1 a2 a3 a4 rest hreg hc hstep
      rw [hs', hreg]
      simp only [stallRegs, getSlot_cons5]

/-- C5 (witness): the five-slot requirement evaluated on a concrete
six-stage engine. -/
theorem step_works_iff_five_slots_witness :
    (∃ s', step notTakenQuiet
      (Pipeline.init ["S1", "S2", "S3", "S4", "S5", "S6"] sample_program) =
        some s') ∧
    ∀ s', step notTakenQuiet
      (Pipeline.init ["S1", "S2", "S3", "S4", "S5", "S6"] sample_program) =
        some s' → ∀ j, 5 ≤ j →
      getSlot s'.pipeline_regs j =
        getSlot (Pipeline.init ["S1", "S2", "S3", "S4", "S5", "S6"]
          sample_program).pipeline_regs j :=
  step_works_iff_five_slots notTakenQuiet _ (by decide) (by decide)

/-- C8: with deterministic predictor operations the engine is
deterministic: two predictors whose `predict` and `actual_outcome` agree
pointwise produce identical timelines from the same instruction sequence
and stage list, for every number of cycles. -/
theorem deterministic_predictor_identical_timelines (P Q : Predictor)
    (hpred : ∀ i, P.predict i = Q.predict i)
    (hact : ∀ i, P.actual_outcome i = Q.actual_outcome i)
    (stages : List String) (instrs : List Instruction) (n : Nat) :
    (stepN P (Pipeline.init stages instrs) n).map Pipeline.timeline =
      (stepN Q (Pipeline.init stages instrs) n).map Pipeline.timeline := by
  have hPQ : P = Q := by
    cases P
    cases Q
    simp only [Predictor.mk.injEq]
    exact ⟨funext hpred, funext hact⟩
  rw [hPQ]

/-- C8 (witness): determinism evaluated for two syntactically different
but extensionally equal static not-taken predictors over six cycles of
the sample program. -/
theorem deterministic_predictor_identical_timelines_witness :
    (stepN notTakenQuiet
      (Pipeline.init stagesFive sample_program) 6).map Pipeline.timeline =
    (stepN ⟨fun _ => false, fun _ => false⟩
      (Pipeline.init stagesFive sample_program) 6).map Pipeline.timeline :=
  deterministic_predictor_identical_timelines notTakenQuiet
    ⟨fun _ => false, fun _ => false⟩ (fun _ => rfl) (fun _ => rfl)
    stagesFive sample_program 6

/-- C9 (counterexample): constructing a pipeline with a two-stage list
does not fail: the constructor returns an ordinary engine state with the
given stages, the full backlog and two empty slots. -/
theorem short_stage_construction_succeeds :
    Pipeline.init ["A", "B"] sample_program =
      ⟨["A", "B"], sample_program, [none, none], 0, 0, 0, []⟩ := by decide

/-- C9 (amended): construction performs no validation and always
succeeds; for a stage list shorter than three the configuration error
surfaces only at the first `step` call, which fails on an out-of-range
slot access. -/
theorem construction_never_fails (stages : List String)
    (instrs : List Instruction) (P : Predictor) (h : stages.length < 3) :
    Pipeline.init stages instrs =
      { stages := stages, instr_queue := instrs,
        pipeline_regs := List.replicate stages.length none,
        cycle := 0, stalls := 0, flushed := 0, timeline := [] } ∧
    step P (Pipeline.init stages instrs) = none := by
  refine ⟨rfl, ?_⟩
  cases hs : step P (Pipeline.init stages instrs) with
  | none => rfl
  | some s' =>
    have h5 := step_regs_five P _ _ hs
    simp [Pipeline.init] at h5
    omega

/-- C9 (witness): the validation-free constructor evaluated on a
concrete two-stage list. -/
theorem construction_never_fails_witness :
    Pipeline.init ["A", "B"] [] =
      { stages := ["A", "B"], instr_queue := [],
        pipeline_regs := List.replicate (["A", "B"] : List String).length none,
        cycle := 0, stalls := 0, flushed := 0, timeline := [] } ∧
    step notTakenQuiet (Pipeline.init ["A", "B"] []) = none :=
  construction_never_fails ["A", "B"] [] notTakenQuiet (by decide)

/-- C10: in every reachable state the timeline length equals the cycle
counter; each further `step` appends exactly one record (leaving earlier
records unmodified), increments the cycle, and any index fetched during
that cycle equals the new cycle number minus one. -/
theorem timeline_tracks_cycle (P : Predictor) (stages : List String)
    (instrs : List Instruction) (n : Nat) (s : Pipeline)
    (h : stepN P (Pipeline.init stages instrs) n = some s) :
    s.timeline.length = s.cycle ∧
    ∀ s', step P s = some s' →
      (∃ rec, s'.timeline = s.timeline ++ [rec]) ∧
      s'.cycle = s.cycle + 1 ∧
      ∀ i, fetchesIdx s = some i → i = s'.cycle - 1 := by
  have h1 : s.timeline.length = s.cycle :=
    stepN_timeline_cycle P n (Pipeline.init stages instrs) s rfl h
  refine ⟨h1, ?_⟩
  intro s' hstep
  obtain ⟨hrec, hcyc⟩ := step_appends_one_record P s s' hstep
  refine ⟨hrec, hcyc, ?_⟩
  intro i hi
  have h2 := fetchesIdx_eq_timeline s i hi
  omega

/-- C10 (witness): timeline-cycle agreement evaluated on the concrete
reachable state `stateLB3`. -/
theorem timeline_tracks_cycle_witness :
    stateLB3.timeline.length = stateLB3.cycle ∧
    ∀ s', step notTakenQuiet stateLB3 = some s' →
      (∃ rec, s'.timeline = stateLB3.timeline ++ [rec]) ∧
      s'.cycle = stateLB3.cycle + 1 ∧
      ∀ i, fetchesIdx stateLB3 = some i → i = s'.cycle - 1 :=
  timeline_tracks_cycle notTakenQuiet stagesFive progLoadBranch 3 stateLB3
    (by decide)

theorem fieldsPreserved_refl (i : Instruction) : FieldsPreserved i i :=
  ⟨rfl, rfl, rfl, rfl, Or.inr rfl, Or.inr rfl⟩

theorem fieldsPreserved_trans (a b c : Instruction)
    (h1 : FieldsPreserved a b) (h2 : FieldsPreserved b c) :
    FieldsPreserved a c := by
  obtain ⟨n1, r1, w1, b1, p1, t1⟩ := h1
  obtain ⟨n2, r2, w2, b2, p2, t2⟩ := h2
  refine ⟨n2.trans n1, r2.trans r1, w2.trans w1, b2.trans b1, ?_, ?_⟩
  · rcases p1 with h | h
    · exact Or.inl h
    · rcases p2 with h' | h'
      · exact Or.inl (by rw [← h]; exact h')
      · exact Or.inr (h'.trans h)
  · rcases t1 with h | h
    · exact Or.inl h
    · rcases t2 with h' | h'
      · exact Or.inl (by rw [← h]; exact h')
      · exact Or.inr (h'.trans h)

theorem applyPredict_preserves (P : Predictor) (e : Entry) :
    FieldsPreserved e.2 (applyPredict P e).1.2 := by
  unfold applyPredict
  rcases hb : (e.2.is_branch && e.2.predicted_taken.isNone) with _ | _
  · simp only [hb, Bool.false_eq_true, if_false]
    exact fieldsPreserved_refl e.2
  · simp only [hb, if_true]
    have hb' := hb
    simp only [Bool.and_eq_true, Option.isNone_iff_eq_none] at hb'
    exact ⟨rfl, rfl, rfl, rfl, Or.inl hb'.2, Or.inr rfl⟩

theorem resolveBranch_not_branch (P : Predictor) (e : Entry)
    (hb : e.2.is_branch = false) :
    resolveBranch P e = (e, [], 0, false) := by
  unfold resolveBranch
  simp [hb]

theorem resolveBranch_branch (P : Predictor) (e : Entry)
    (hb : e.2.is_branch = true) :
    (resolveBranch P e).1 =
      ⟨e.1, { e.2 with actual_taken := some (P.actual_outcome e.2) }⟩ := by
  unfold resolveBranch
  rw [if_pos hb]
  dsimp only
  split <;> rfl

theorem resolveBranch_preserves (P : Predictor) (e : Entry)
    (hact : e.2.actual_taken = none) :
    FieldsPreserved e.2 (resolveBranch P e).1.2 := by
  rcases hb : e.2.is_branch with _ | _
  · rw [resolveBranch_not_branch P e hb]
    exact fieldsPreserved_refl e.2
  · rw [resolveBranch_branch P e hb]
    exact ⟨rfl, rfl, rfl, rfl, Or.inr rfl, Or.inl hact⟩

theorem resolveBranch_idx (P : Predictor) (e : Entry) :
    (resolveBranch P e).1.1 = e.1 := by
  rcases hb : e.2.is_branch with _ | _
  · rw [resolveBranch_not_branch P e hb]
  · rw [resolveBranch_branch P e hb]

theorem EntriesOf_cons_some (e : Entry) (l : List (Option Entry)) :
    EntriesOf (some e :: l) = e :: EntriesOf l := by
  simp [EntriesOf]

theorem EntriesOf_cons_none (l : List (Option Entry)) :
    EntriesOf (none :: l) = EntriesOf l := by
  simp [EntriesOf]

theorem EntriesOf_replicate_none (n : Nat) :
    EntriesOf (List.replicate n (none : Option Entry)) = [] := by
  induction n with
  | zero => rfl
  | succ m ih => simp [List.replicate, EntriesOf_cons_none, ih]

theorem getSlot_replicate_none (n j : Nat) (v : Option Entry)
    (h : getSlot (List.replicate n (none : Option Entry)) j = some v) :
    v = none := by
  induction n generalizing j with
  | zero => simp [getSlot] at h
  | succ m ih =>
    cases j with
    | zero =>
      simp [List.replicate, getSlot] at h
      exact h.symm
    | succ k =>
      rw [List.replicate, getSlot] at h
      exact ih k h

theorem applyPredict_actual (P : Predictor) (e : Entry) :
    (applyPredict P e).1.2.actual_taken = e.2.actual_taken := by
  unfold applyPredict
  split <;> rfl

theorem applyPredict_branch (P : Predictor) (e : Entry) :
    (applyPredict P e).1.2.is_branch = e.2.is_branch := by
  unfold applyPredict
  split <;> rfl

theorem applyPredict_not_branch (P : Predictor) (e : Entry)
    (hb : e.2.is_branch = false) : (applyPredict P e).1 = e := by
  unfold applyPredict
  rw [if_neg]
  simp [hb]

theorem stallCond_true_some (a1 a2 : Option Entry)
    (h : stallCond a1 a2 = true) :
    ∃ e1 e2, a1 = some e1 ∧ a2 = some e2 ∧
      detect_data_hazard e1.2 (some e2.2) = true := by
  rcases a1 with _ | e1 <;> rcases a2 with _ | e2 <;>
    simp [stallCond] at h ⊢
  exact h

theorem EntriesOf_cons (x : Option Entry) (l : List (Option Entry)) :
    EntriesOf (x :: l) = x.toList ++ EntriesOf l := by
  cases x <;> simp [EntriesOf]

theorem idxs_cons (x : Option Entry) (l : List (Option Entry)) :
    idxs (x :: l) = x.toList.map Prod.fst ++ idxs l := by
  simp [idxs, EntriesOf_cons]

theorem fetchSlot_cases (q : List Instruction) (tl : Nat) :
    (q = [] ∧ fetchSlot q tl = (none, [])) ∨
    (∃ i q', q = i :: q' ∧ fetchSlot q tl = (some (tl, i), q')) := by
  rcases q with _ | ⟨i, q'⟩
  · exact Or.inl ⟨rfl, rfl⟩
  · exact Or.inr ⟨i, q', rfl, rfl⟩

theorem normalCore_forms (P : Predictor) (q : List Instruction) (tl : Nat)
    (a0 a1 a2 a3 : Option Entry) (rest : List (Option Entry)) :
    (normalCore P q tl a0 a1 a2 a3 rest).2.1 = (fetchSlot q tl).2 ∧
    ((a1 = none ∧ (normalCore P q tl a0 a1 a2 a3 rest).1 =
        (fetchSlot q tl).1 :: a0 :: none :: a2 :: a3 :: rest) ∨
     (∃ e1, a1 = some e1 ∧
       ((normalCore P q tl a0 a1 a2 a3 rest).1 =
          (fetchSlot q tl).1 :: a0 ::
            some (resolveBranch P (applyPredict P e1).1).1 ::
            a2 :: a3 :: rest ∨
        (normalCore P q tl a0 a1 a2 a3 rest).1 =
          none :: none ::
            some (resolveBranch P (applyPredict P e1).1).1 ::
            a2 :: a3 :: rest))) := by
  unfold normalCore
  rcases a1 with _ | e1
  · simp [predSlot]
  · simp only [predSlot]
    rcases hr : resolveBranch P (applyPredict P e1).1 with ⟨e2, evB, df, sq⟩
    rcases sq
    · refine ⟨by simp [hr], Or.inr ⟨e1, rfl, Or.inl ?_⟩⟩
      simp [hr, List.set]
    · refine ⟨by simp [hr], Or.inr ⟨e1, rfl, Or.inr ?_⟩⟩
      simp [hr, List.set, squash01_first_two]

theorem RunInv_init (stages : List String) (instrs : List Instruction)
    (hwf : ∀ i ∈ instrs, i.fresh) :
    RunInv (Pipeline.init stages instrs) := by
  refine ⟨hwf, ?_, ?_, ?_, ?_⟩
  · intro e h
    have := getSlot_replicate_none stages.length 0 (some e) h
    exact Option.noConfusion this
  · intro e h
    have := getSlot_replicate_none stages.length 1 (some e) h
    exact Option.noConfusion this
  · intro e h
    rw [show (Pipeline.init stages instrs).pipeline_regs =
      List.replicate stages.length none from rfl,
      EntriesOf_replicate_none] at h
    exact absurd h (List.not_mem_nil e)
  · rw [show (Pipeline.init stages instrs).pipeline_regs =
      List.replicate stages.length none from rfl]
    rw [show idxs (List.replicate stages.length none) = [] by
      simp [idxs, EntriesOf_replicate_none]]
    exact List.nodup_nil

theorem stall_inv_track (P : Predictor) (s s' : Pipeline)
    (a0 a1 a2 a3 a4 : Option Entry) (rest : List (Option Entry))
    (hreg : s.pipeline_regs = a0 :: a1 :: a2 :: a3 :: a4 :: rest)
    (hsc : stallCond a1 a2 = true)
    (hinv : RunInv s) (hstep : step P s = some s') :
    RunInv s' ∧ ∀ e' ∈ EntriesOf s'.pipeline_regs,
      (∃ ins, (e'.1, ins) ∈ EntriesOf s.pipeline_regs ∧
        FieldsPreserved ins e'.2) ∨
      (e'.1 = s.timeline.length ∧ e'.2.fresh) := by
  obtain ⟨e1, e2, ha1, ha2, hz⟩ := stallCond_true_some a1 a2 hsc
  subst ha1
  subst ha2
  obtain ⟨ev, hev, hs'⟩ :=
    step_stall_eval P s s' a0 _ _ a3 a4 rest hreg hsc hstep
  obtain ⟨hq, h0, h1, hd, hnd⟩ := hinv
  have hg0 : getSlot s.pipeline_regs 0 = some a0 := by rw [hreg]; rfl
  have hg1 : getSlot s.pipeline_regs 1 = some (some e1) := by rw [hreg]; rfl
  have hregs' : stallRegs P a0 (some e1) (some e2) a3 rest =
      a0 :: some (applyPredict P e1).1 :: none :: some e2 :: a3 :: rest := rfl
  have hmemOld : ∀ e : Entry,
      (a0 = some e ∨ e = e1 ∨ e = e2 ∨ a3 = some e ∨ e ∈ EntriesOf rest) →
      e ∈ EntriesOf s.pipeline_regs := by
    intro e hcase
    rw [hreg]
    simp only [EntriesOf_cons, List.mem_append, Option.mem_toList,
      Option.mem_def, List.mem_cons]
    rcases hcase with h | h | h | h | h
    · exact Or.inl h
    · subst h
      simp [EntriesOf_cons]
    · subst h
      simp [EntriesOf_cons]
    · simp [EntriesOf_cons, h]
    · simp [EntriesOf_cons, h]
  have hcases : ∀ e' : Entry, e' ∈ EntriesOf (stallRegs P a0 (some e1)
      (some e2) a3 rest) →
      (a0 = some e' ∨ e' = (applyPredict P e1).1 ∨ e' = e2 ∨
        a3 = some e' ∨ e' ∈ EntriesOf rest) := by
    intro e' he'
    rw [hregs'] at he'
    simp only [EntriesOf_cons, List.mem_append, Option.mem_toList,
      Option.mem_def, Option.toList_some, Option.toList_none,
      List.mem_cons, List.mem_singleton, List.nil_append,
      List.not_mem_nil, or_false, false_or] at he'
    tauto
  subst hs'
  dsimp only
  constructor
  · refine ⟨hq, ?_, ?_, ?_, ?_⟩
    · intro e h
      rw [hregs'] at h
      exact h0 e (by rw [hg0, Option.some.inj h])
    · intro e h
      rw [hregs'] at h
      have he : (applyPredict P e1).1 = e :=
        Option.some.inj (Option.some.inj h)
      rw [← he, applyPredict_actual]
      exact h1 e1 hg1
    · intro e he
      rcases hcases e he with h | h | h | h | h
      · have := hd e (hmemOld e (Or.inl h))
        exact ⟨this.1, by simp; omega⟩
      · subst h
        have hold := hd e1 (hmemOld e1 (Or.inr (Or.inl rfl)))
        constructor
        · intro hb
          rw [applyPredict_branch] at hb
          rw [applyPredict_not_branch P e1 hb]
          exact hold.1 hb
        · rw [applyPredict_idx]
          have := hold.2
          simp
          omega
      · subst h
        have := hd e (hmemOld e (Or.inr (Or.inr (Or.inl rfl))))
        exact ⟨this.1, by simp; omega⟩
      · have := hd e (hmemOld e (Or.inr (Or.inr (Or.inr (Or.inl h)))))
        exact ⟨this.1, by simp; omega⟩
      · have := hd e (hmemOld e (Or.inr (Or.inr (Or.inr (Or.inr h)))))
        exact ⟨this.1, by simp; omega⟩
    · have hidNew : idxs (stallRegs P a0 (some e1) (some e2) a3 rest) =
          a0.toList.map Prod.fst ++ (e1.1 :: e2.1 ::
            (a3.toList.map Prod.fst ++ idxs rest)) := by
        rw [hregs']
        simp [idxs_cons, applyPredict_idx]
      have hidOld : idxs s.pipeline_regs =
          a0.toList.map Prod.fst ++ (e1.1 :: e2.1 ::
            (a3.toList.map Prod.fst ++ (a4.toList.map Prod.fst ++
              idxs rest))) := by
        rw [hreg]
        simp [idxs_cons]
      rw [hidNew]
      rw [hidOld] at hnd
      refine List.Nodup.sublist ?_ hnd
      refine List.Sublist.append_left ?_ _
      refine List.Sublist.cons₂ _ ?_
      refine List.Sublist.cons₂ _ ?_
      exact List.Sublist.append_left (List.sublist_append_right _ _) _
  · intro e' he'
    rcases hcases e' he' with h | h | h | h | h
    · exact Or.inl ⟨e'.2, by
        have := hmemOld e' (Or.inl h)
        simpa using this, fieldsPreserved_refl e'.2⟩
    · subst h
      refine Or.inl ⟨e1.2, ?_, applyPredict_preserves P e1⟩
      rw [applyPredict_idx]
      exact hmemOld e1 (Or.inr (Or.inl rfl))
    · subst h
      exact Or.inl ⟨e'.2, hmemOld e' (Or.inr (Or.inr (Or.inl rfl))),
        fieldsPreserved_refl e'.2⟩
    · exact Or.inl ⟨e'.2, by
        have := hmemOld e' (Or.inr (Or.inr (Or.inr (Or.inl h))))
        simpa using this, fieldsPreserved_refl e'.2⟩
    · exact Or.inl ⟨e'.2, by
        have := hmemOld e' (Or.inr (Or.inr (Or.inr (Or.inr h))))
        simpa using this, fieldsPreserved_refl e'.2⟩

theorem resolveBranch_branchfield (P : Predictor) (e : Entry) :
    (resolveBranch P e).1.2.is_branch = e.2.is_branch := by
  rcases hb : e.2.is_branch with _ | _
  · rw [resolveBranch_not_branch P e hb, hb]
  · rw [resolveBranch_branch P e hb, hb]

theorem sublist_skip_middle (A B C : List Nat) :
    List.Sublist (A ++ C) (A ++ (B ++ C)) :=
  List.Sublist.append_left (List.sublist_append_right B C) A

theorem normal_inv_track (P : Predictor) (s s' : Pipeline)
    (a0 a1 a2 a3 a4 : Option Entry) (rest : List (Option Entry))
    (hreg : s.pipeline_regs = a0 :: a1 :: a2 :: a3 :: a4 :: rest)
    (hsc : stallCond a1 a2 = false)
    (hinv : RunInv s) (hstep : step P s = some s') :
    RunInv s' ∧ ∀ e' ∈ EntriesOf s'.pipeline_regs,
      (∃ ins, (e'.1, ins) ∈ EntriesOf s.pipeline_regs ∧
        FieldsPreserved ins e'.2) ∨
      (e'.1 = s.timeline.length ∧ e'.2.fresh) := by
  obtain ⟨ev, hev, hs'⟩ :=
    step_normal_eval P s s' a0 a1 a2 a3 a4 rest hreg hsc hstep
  obtain ⟨hq, h0, h1, hd, hnd⟩ := hinv
  have hg0 : getSlot s.pipeline_regs 0 = some a0 := by rw [hreg]; rfl
  have hg1 : getSlot s.pipeline_regs 1 = some a1 := by rw [hreg]; rfl
  have hmemOld : ∀ e : Entry,
      (a0 = some e ∨ a1 = some e ∨ a2 = some e ∨ a3 = some e ∨
        e ∈ EntriesOf rest) →
      e ∈ EntriesOf s.pipeline_regs := by
    intro e hcase
    rw [hreg]
    simp only [EntriesOf_cons, List.mem_append, Option.mem_toList,
      Option.mem_def]
    tauto
  have hbound : ∀ y ∈ idxs s.pipeline_regs, y < s.timeline.length := by
    intro y hy
    simp only [idxs, List.mem_map] at hy
    obtain ⟨e, he, hye⟩ := hy
    rw [← hye]
    exact (hd e he).2
  have hfent : ∀ e : Entry,
      (fetchSlot s.instr_queue s.timeline.length).1 = some e →
      e.1 = s.timeline.length ∧ e.2.fresh := by
    intro e hf
    rcases fetchSlot_cases s.instr_queue s.timeline.length with
      ⟨hqe, hfe⟩ | ⟨i, q', hqe, hfe⟩
    · rw [hfe] at hf
      exact Option.noConfusion hf
    · rw [hfe] at hf
      have he := Option.some.inj hf
      refine ⟨by rw [← he], ?_⟩
      rw [← he]
      exact hq i (by rw [hqe]; exact List.mem_cons_self i q')
  have hq' : ∀ x ∈ (fetchSlot s.instr_queue s.timeline.length).2, x.fresh := by
    intro x hx
    rcases fetchSlot_cases s.instr_queue s.timeline.length with
      ⟨hqe, hfe⟩ | ⟨i, q', hqe, hfe⟩
    · rw [hfe] at hx
      exact absurd hx (List.not_mem_nil x)
    · rw [hfe] at hx
      exact hq x (by rw [hqe]; exact List.mem_cons_of_mem i hx)
  have hfidx : ((fetchSlot s.instr_queue s.timeline.length).1).toList.map
      Prod.fst = [] ∨
      ((fetchSlot s.instr_queue s.timeline.length).1).toList.map
        Prod.fst = [s.timeline.length] := by
    rcases fetchSlot_cases s.instr_queue s.timeline.length with
      ⟨hqe, hfe⟩ | ⟨i, q', hqe, hfe⟩
    · rw [hfe]
      exact Or.inl rfl
    · rw [hfe]
      exact Or.inr rfl
  obtain ⟨hcq, hforms⟩ := normalCore_forms P s.instr_queue
    s.timeline.length a0 a1 a2 a3 rest
  subst hs'
  dsimp only
  rcases hforms with ⟨ha1, hform⟩ | ⟨e1, ha1, hform | hform⟩
  · -- no decode occupant: plain shift and fetch
    subst ha1
    rw [hform, hcq]
    have hcases : ∀ e' : Entry, e' ∈ EntriesOf
        ((fetchSlot s.instr_queue s.timeline.length).1 :: a0 :: none ::
          a2 :: a3 :: rest) →
        ((fetchSlot s.instr_queue s.timeline.length).1 = some e' ∨
          a0 = some e' ∨ a2 = some e' ∨ a3 = some e' ∨
          e' ∈ EntriesOf rest) := by
      intro e' he'
      simp only [EntriesOf_cons, List.mem_append, Option.mem_toList,
        Option.mem_def, Option.toList_none, List.not_mem_nil, or_false,
        false_or, List.nil_append] at he'
      tauto
    constructor
    · refine ⟨hq', ?_, ?_, ?_, ?_⟩
      · intro e h
        have hf : (fetchSlot s.instr_queue s.timeline.length).1 = some e :=
          Option.some.inj h
        exact (hfent e hf).2
      · intro e h
        have ha : a0 = some e := Option.some.inj h
        exact (h0 e (by rw [hg0, ha])).2
      · intro e he
        rcases hcases e he with h | h | h | h | h
        · obtain ⟨hidx, hfr⟩ := hfent e h
          exact ⟨fun _ => hfr, by simp [hidx]⟩
        · have := hd e (hmemOld e (Or.inl h))
          exact ⟨this.1, by simp; omega⟩
        · have := hd e (hmemOld e (Or.inr (Or.inr (Or.inl h))))
          exact ⟨this.1, by simp; omega⟩
        · have := hd e (hmemOld e (Or.inr (Or.inr (Or.inr (Or.inl h)))))
          exact ⟨this.1, by simp; omega⟩
        · have := hd e (hmemOld e (Or.inr (Or.inr (Or.inr (Or.inr h)))))
          exact ⟨this.1, by simp; omega⟩
      · have hidOld : idxs s.pipeline_regs =
            a0.toList.map Prod.fst ++ (a2.toList.map Prod.fst ++
              (a3.toList.map Prod.fst ++ (a4.toList.map Prod.fst ++
                idxs rest))) := by
          rw [hreg]
          simp [idxs_cons]
        have hsubY : List.Sublist
            (a0.toList.map Prod.fst ++ (a2.toList.map Prod.fst ++
              (a3.toList.map Prod.fst ++ idxs rest)))
            (idxs s.pipeline_regs) := by
          rw [hidOld]
          refine List.Sublist.append_left ?_ _
          refine List.Sublist.append_left ?_ _
          refine List.Sublist.append_left ?_ _
          exact List.sublist_append_right _ _
        have hYnd := List.Nodup.sublist hsubY hnd
        have hidNew : idxs ((fetchSlot s.instr_queue s.timeline.length).1 ::
            a0 :: none :: a2 :: a3 :: rest) =
            ((fetchSlot s.instr_queue s.timeline.length).1).toList.map
              Prod.fst ++
            (a0.toList.map Prod.fst ++ (a2.toList.map Prod.fst ++
              (a3.toList.map Prod.fst ++ idxs rest))) := by
          simp [idxs_cons]
        rw [hidNew]
        rcases hfidx with hf | hf
        · rw [hf]
          simpa using hYnd
        · rw [hf]
          refine List.Nodup.cons ?_ hYnd
          intro hmem
          have := hbound _ (hsubY.subset (by simpa using hmem))
          omega
    · intro e' he'
      rcases hcases e' he' with h | h | h | h | h
      · obtain ⟨hidx, hfr⟩ := hfent e' h
        exact Or.inr ⟨hidx, hfr⟩
      · exact Or.inl ⟨e'.2, by
          have := hmemOld e' (Or.inl h)
          simpa using this, fieldsPreserved_refl e'.2⟩
      · exact Or.inl ⟨e'.2, by
          have := hmemOld e' (Or.inr (Or.inr (Or.inl h)))
          simpa using this, fieldsPreserved_refl e'.2⟩
      · exact Or.inl ⟨e'.2, by
          have := hmemOld e' (Or.inr (Or.inr (Or.inr (Or.inl h))))
          simpa using this, fieldsPreserved_refl e'.2⟩
      · exact Or.inl ⟨e'.2, by
          have := hmemOld e' (Or.inr (Or.inr (Or.inr (Or.inr h))))
          simpa using this, fieldsPreserved_refl e'.2⟩
  · -- decode occupant present, no squash
    subst ha1
    rw [hform, hcq]
    have hactae : (applyPredict P e1).1.2.actual_taken = none := by
      rw [applyPredict_actual]
      exact h1 e1 (by rw [hg1])
    have hreF : FieldsPreserved e1.2
        (resolveBranch P (applyPredict P e1).1).1.2 :=
      fieldsPreserved_trans _ _ _ (applyPredict_preserves P e1)
        (resolveBranch_preserves P (applyPredict P e1).1 hactae)
    have hre1idx : (resolveBranch P (applyPredict P e1).1).1.1 = e1.1 := by
      rw [resolveBranch_idx, applyPredict_idx]
    have hre1branch : (resolveBranch P (applyPredict P e1).1).1.2.is_branch =
        e1.2.is_branch := by
      rw [resolveBranch_branchfield, applyPredict_branch]
    have hre1nb : e1.2.is_branch = false →
        (resolveBranch P (applyPredict P e1).1).1.2 = e1.2 := by
      intro hb
      rw [resolveBranch_not_branch P (applyPredict P e1).1
        (by rw [applyPredict_branch]; exact hb)]
      rw [applyPredict_not_branch P e1 hb]
    have hcases : ∀ e' : Entry, e' ∈ EntriesOf
        ((fetchSlot s.instr_queue s.timeline.length).1 :: a0 ::
          some (resolveBranch P (applyPredict P e1).1).1 ::
          a2 :: a3 :: rest) →
        ((fetchSlot s.instr_queue s.timeline.length).1 = some e' ∨
          a0 = some e' ∨ e' = (resolveBranch P (applyPredict P e1).1).1 ∨
          a3 = some e' ∨ a2 = some e' ∨ e' ∈ EntriesOf rest) := by
      intro e' he'
      simp only [EntriesOf_cons, List.mem_append, Option.mem_toList,
        Option.mem_def, Option.toList_some, List.mem_singleton,
        List.nil_append] at he'
      tauto
    constructor
    · refine ⟨hq', ?_, ?_, ?_, ?_⟩
      · intro e h
        have hf : (fetchSlot s.instr_queue s.timeline.length).1 = some e :=
          Option.some.inj h
        exact (hfent e hf).2
      · intro e h
        have ha : a0 = some e := Option.some.inj h
        exact (h0 e (by rw [hg0, ha])).2
      · intro e he
        rcases hcases e he with h | h | h | h | h | h
        · obtain ⟨hidx, hfr⟩ := hfent e h
          exact ⟨fun _ => hfr, by simp [hidx]⟩
        · have := hd e (hmemOld e (Or.inl h))
          exact ⟨this.1, by simp; omega⟩
        · subst h
          have hold := hd e1 (hmemOld e1 (Or.inr (Or.inl rfl)))
          constructor
          · intro hb
            rw [hre1branch] at hb
            rw [hre1nb hb]
            exact hold.1 hb
          · rw [hre1idx]
            have := hold.2
            simp
            omega
        · have := hd e (hmemOld e (Or.inr (Or.inr (Or.inr (Or.inl h)))))
          exact ⟨this.1, by simp; omega⟩
        · have := hd e (hmemOld e (Or.inr (Or.inr (Or.inl h))))
          exact ⟨this.1, by simp; omega⟩
        · have := hd e (hmemOld e (Or.inr (Or.inr (Or.inr (Or.inr h)))))
          exact ⟨this.1, by simp; omega⟩
      · have hidOld : idxs s.pipeline_regs =
            a0.toList.map Prod.fst ++ (e1.1 ::
              (a2.toList.map Prod.fst ++ (a3.toList.map Prod.fst ++
                (a4.toList.map Prod.fst ++ idxs rest)))) := by
          rw [hreg]
          simp [idxs_cons]
        have hsubY : List.Sublist
            (a0.toList.map Prod.fst ++ (e1.1 ::
              (a2.toList.map Prod.fst ++ (a3.toList.map Prod.fst ++
                idxs rest))))
            (idxs s.pipeline_regs) := by
          rw [hidOld]
          refine List.Sublist.append_left ?_ _
          refine List.Sublist.cons₂ _ ?_
          refine List.Sublist.append_left ?_ _
          refine List.Sublist.append_left ?_ _
          exact List.sublist_append_right _ _
        have hYnd := List.Nodup.sublist hsubY hnd
        have hidNew : idxs ((fetchSlot s.instr_queue s.timeline.length).1 ::
            a0 :: some (resolveBranch P (applyPredict P e1).1).1 ::
            a2 :: a3 :: rest) =
            ((fetchSlot s.instr_queue s.timeline.length).1).toList.map
              Prod.fst ++
            (a0.toList.map Prod.fst ++ (e1.1 ::
              (a2.toList.map Prod.fst ++ (a3.toList.map Prod.fst ++
                idxs rest)))) := by
          simp [idxs_cons, hre1idx]
        rw [hidNew]
        rcases hfidx with hf | hf
        · rw [hf]
          simpa using hYnd
        · rw [hf]
          refine List.Nodup.cons ?_ hYnd
          intro hmem
          have := hbound _ (hsubY.subset (by simpa using hmem))
          omega
    · intro e' he'
      rcases hcases e' he' with h | h | h | h | h | h
      · obtain ⟨hidx, hfr⟩ := hfent e' h
        exact Or.inr ⟨hidx, hfr⟩
      · exact Or.inl ⟨e'.2, by
          have := hmemOld e' (Or.inl h)
          simpa using this, fieldsPreserved_refl e'.2⟩
      · subst h
        refine Or.inl ⟨e1.2, ?_, hreF⟩
        rw [hre1idx]
        exact hmemOld e1 (Or.inr (Or.inl rfl))
      · exact Or.inl ⟨e'.2, by
          have := hmemOld e' (Or.inr (Or.inr (Or.inr (Or.inl h))))
          simpa using this, fieldsPreserved_refl e'.2⟩
      · exact Or.inl ⟨e'.2, by
          have := hmemOld e' (Or.inr (Or.inr (Or.inl h)))
          simpa using this, fieldsPreserved_refl e'.2⟩
      · exact Or.inl ⟨e'.2, by
          have := hmemOld e' (Or.inr (Or.inr (Or.inr (Or.inr h))))
          simpa using this, fieldsPreserved_refl e'.2⟩
  · -- decode occupant present, mispredicted: squash
    subst ha1
    rw [hform, hcq]
    have hactae : (applyPredict P e1).1.2.actual_taken = none := by
      rw [applyPredict_actual]
      exact h1 e1 (by rw [hg1])
    have hreF : FieldsPreserved e1.2
        (resolveBranch P (applyPredict P e1).1).1.2 :=
      fieldsPreserved_trans _ _ _ (applyPredict_preserves P e1)
        (resolveBranch_preserves P (applyPredict P e1).1 hactae)
    have hre1idx : (resolveBranch P (applyPredict P e1).1).1.1 = e1.1 := by
      rw [resolveBranch_idx, applyPredict_idx]
    have hre1branch : (resolveBranch P (applyPredict P e1).1).1.2.is_branch =
        e1.2.is_branch := by
      rw [resolveBranch_branchfield, applyPredict_branch]
    have hre1nb : e1.2.is_branch = false →
        (resolveBranch P (applyPredict P e1).1).1.2 = e1.2 := by
      intro hb
      rw [resolveBranch_not_branch P (applyPredict P e1).1
        (by rw [applyPredict_branch]; exact hb)]
      rw [applyPredict_not_branch P e1 hb]
    have hcases : ∀ e' : Entry, e' ∈ EntriesOf
        ((none : Option Entry) :: none ::
          some (resolveBranch P (applyPredict P e1).1).1 ::
          a2 :: a3 :: rest) →
        (e' = (resolveBranch P (applyPredict P e1).1).1 ∨
          a2 = some e' ∨ a3 = some e' ∨ e' ∈ EntriesOf rest) := by
      intro e' he'
      simp only [EntriesOf_cons, List.mem_append, Option.mem_toList,
        Option.mem_def, Option.toList_some, Option.toList_none,
        List.mem_singleton, List.nil_append, List.not_mem_nil, false_or,
        or_false] at he'
      tauto
    constructor
    · refine ⟨hq', ?_, ?_, ?_, ?_⟩
      · intro e h
        exact Option.noConfusion (Option.some.inj h)
      · intro e h
        exact Option.noConfusion (Option.some.inj h)
      · intro e he
        rcases hcases e he with h | h | h | h
        · subst h
          have hold := hd e1 (hmemOld e1 (Or.inr (Or.inl rfl)))
          constructor
          · intro hb
            rw [hre1branch] at hb
            rw [hre1nb hb]
            exact hold.1 hb
          · rw [hre1idx]
            have := hold.2
            simp
            omega
        · have := hd e (hmemOld e (Or.inr (Or.inr (Or.inl h))))
          exact ⟨this.1, by simp; omega⟩
        · have := hd e (hmemOld e (Or.inr (Or.inr (Or.inr (Or.inl h)))))
          exact ⟨this.1, by simp; omega⟩
        · have := hd e (hmemOld e (Or.inr (Or.inr (Or.inr (Or.inr h)))))
          exact ⟨this.1, by simp; omega⟩
      · have hidOld : idxs s.pipeline_regs =
            a0.toList.map Prod.fst ++ (e1.1 ::
              (a2.toList.map Prod.fst ++ (a3.toList.map Prod.fst ++
                (a4.toList.map Prod.fst ++ idxs rest)))) := by
          rw [hreg]
          simp [idxs_cons]
        have hsubY : List.Sublist
            (e1.1 :: (a2.toList.map Prod.fst ++ (a3.toList.map Prod.fst ++
              idxs rest)))
            (idxs s.pipeline_regs) := by
          rw [hidOld]
          refine List.Sublist.trans ?_ (List.sublist_append_right _ _)
          refine List.Sublist.cons₂ _ ?_
          refine List.Sublist.append_left ?_ _
          refine List.Sublist.append_left ?_ _
          exact List.sublist_append_right _ _
        have hYnd := List.Nodup.sublist hsubY hnd
        have hidNew : idxs ((none : Option Entry) :: none ::
            some (resolveBranch P (applyPredict P e1).1).1 ::
            a2 :: a3 :: rest) =
            e1.1 :: (a2.toList.map Prod.fst ++ (a3.toList.map Prod.fst ++
              idxs rest)) := by
          simp [idxs_cons, hre1idx]
        rw [hidNew]
        exact hYnd
    · intro e' he'
      rcases hcases e' he' with h | h | h | h
      · subst h
        refine Or.inl ⟨e1.2, ?_, hreF⟩
        rw [hre1idx]
        exact hmemOld e1 (Or.inr (Or.inl rfl))
      · exact Or.inl ⟨e'.2, by
          have := hmemOld e' (Or.inr (Or.inr (Or.inl h)))
          simpa using this, fieldsPreserved_refl e'.2⟩
      · exact Or.inl ⟨e'.2, by
          have := hmemOld e' (Or.inr (Or.inr (Or.inr (Or.inl h))))
          simpa using this, fieldsPreserved_refl e'.2⟩
      · exact Or.inl ⟨e'.2, by
          have := hmemOld e' (Or.inr (Or.inr (Or.inr (Or.inr h))))
          simpa using this, fieldsPreserved_refl e'.2⟩

theorem step_inv_track (P : Predictor) (s s' : Pipeline)
    (hinv : RunInv s) (hstep : step P s = some s') :
    RunInv s' ∧ ∀ e' ∈ EntriesOf s'.pipeline_regs,
      (∃ ins, (e'.1, ins) ∈ EntriesOf s.pipeline_regs ∧
        FieldsPreserved ins e'.2) ∨
      (e'.1 = s.timeline.length ∧ e'.2.fresh) := by
  obtain ⟨a0, a1, a2, a3, a4, rest, hreg⟩ := step_shape P s s' hstep
  rcases hsc : stallCond a1 a2
  · exact normal_inv_track P s s' a0 a1 a2 a3 a4 rest hreg hsc hinv hstep
  · exact stall_inv_track P s s' a0 a1 a2 a3 a4 rest hreg hsc hinv hstep

theorem RunInv_reachable (P : Predictor) (n : Nat) :
    ∀ s t : Pipeline, RunInv s → stepN P s n = some t → RunInv t := by
  induction n with
  | zero =>
    intro s t h0 h
    cases h
    exact h0
  | succ m ih =>
    intro s t h0 h
    rw [stepN] at h
    rcases hs : step P s with _ | s2 <;> rw [hs] at h
    · exact Option.noConfusion h
    · exact ih s2 t (step_inv_track P s s2 h0 hs).1 h

/-- C6: starting from freshly created instructions, in every reachable
state non-branch occupants have both prediction-outcome fields unset, the
occupant program-order indices are pairwise distinct, and across any
further step every occupant either descends from the unique occupant
with the same index (its static fields unchanged and each
prediction-outcome field either still unset before the step or keeping
its value — set at most once, never changed) or is the freshly fetched
instruction with both fields unset. -/
theorem once_only_fields (P : Predictor) (stages : List String)
    (instrs : List Instruction)
    (hwf : ∀ i ∈ instrs, i.predicted_taken = none ∧ i.actual_taken = none)
    (n : Nat) (s : Pipeline)
    (h : stepN P (Pipeline.init stages instrs) n = some s) :
    (∀ e ∈ EntriesOf s.pipeline_regs, e.2.is_branch = false →
      e.2.predicted_taken = none ∧ e.2.actual_taken = none) ∧
    (idxs s.pipeline_regs).Nodup ∧
    ∀ s', step P s = some s' → ∀ e' ∈ EntriesOf s'.pipeline_regs,
      (∃ ins, (e'.1, ins) ∈ EntriesOf s.pipeline_regs ∧
        FieldsPreserved ins e'.2) ∨
      (e'.1 = s.timeline.length ∧ e'.2.predicted_taken = none ∧
        e'.2.actual_taken = none) := by
  have hinv : RunInv s :=
    RunInv_reachable P n (Pipeline.init stages instrs) s
      (RunInv_init stages instrs hwf) h
  refine ⟨fun e he hb => (hinv.2.2.2.1 e he).1 hb, hinv.2.2.2.2, ?_⟩
  intro s' hstep
  exact (step_inv_track P s s' hinv hstep).2

/-- C6 (witness): the once-only discipline evaluated on the concrete
reachable state `stateLB3` of the load-branch program. -/
theorem once_only_fields_witness :
    (∀ e ∈ EntriesOf stateLB3.pipeline_regs, e.2.is_branch = false →
      e.2.predicted_taken = none ∧ e.2.actual_taken = none) ∧
    (idxs stateLB3.pipeline_regs).Nodup ∧
    ∀ s', step notTakenQuiet stateLB3 = some s' →
      ∀ e' ∈ EntriesOf s'.pipeline_regs,
      (∃ ins, (e'.1, ins) ∈ EntriesOf stateLB3.pipeline_regs ∧
        FieldsPreserved ins e'.2) ∨
      (e'.1 = stateLB3.timeline.length ∧ e'.2.predicted_taken = none ∧
        e'.2.actual_taken = none) :=
  once_only_fields notTakenQuiet stagesFive progLoadBranch
    (by decide) 3 stateLB3 (by decide)

theorem step_preserves (P : Predictor) (s s' : Pipeline)
    (hstep : step P s = some s') :
    s'.stages = s.stages ∧
      s'.pipeline_regs.length = s.pipeline_regs.length := by
  obtain ⟨a0, a1, a2, a3, a4, rest, hreg⟩ := step_shape P s s' hstep
  have hlen : s.pipeline_regs.length = 5 + rest.length := by
    rw [hreg]
    simp
    omega
  rcases hsc : stallCond a1 a2
  · obtain ⟨ev, hev, hs'⟩ :=
      step_normal_eval P s s' a0 a1 a2 a3 a4 rest hreg hsc hstep
    subst hs'
    exact ⟨rfl, by rw [normalCore_length, hlen]⟩
  · obtain ⟨ev, hev, hs'⟩ :=
      step_stall_eval P s s' a0 a1 a2 a3 a4 rest hreg hsc hstep
    subst hs'
    exact ⟨rfl, by rw [stallRegs_length, hlen]⟩

theorem stepN_preserves (P : Predictor) (n : Nat) :
    ∀ s t : Pipeline, stepN P s n = some t →
      t.stages = s.stages ∧
        t.pipeline_regs.length = s.pipeline_regs.length := by
  induction n with
  | zero =>
    intro s t h
    cases h
    exact ⟨rfl, rfl⟩
  | succ m ih =>
    intro s t h
    rw [stepN] at h
    rcases hs : step P s with _ | s2 <;> rw [hs] at h
    · exact Option.noConfusion h
    · obtain ⟨h1, h2⟩ := step_preserves P s s2 hs
      obtain ⟨h3, h4⟩ := ih s2 t h
      exact ⟨h3.trans h1, h4.trans h2⟩

theorem stepN_succ_right (P : Predictor) (n : Nat) :
    ∀ s : Pipeline, stepN P s (n + 1) =
      (stepN P s n).bind (fun u => step P u) := by
  induction n with
  | zero =>
    intro s
    rcases hs : step P s with _ | s2 <;> simp [stepN, hs]
  | succ m ih =>
    intro s
    rcases hs : step P s with _ | s2 <;> simp [stepN, hs]
    exact ih s2

theorem firstOcc_none_iff (l : List (Option Entry)) :
    firstOcc l = none ↔ ∀ r ∈ l, r = none := by
  induction l with
  | nil => simp [firstOcc]
  | cons x xs ih =>
    rcases x with _ | e
    · simp [firstOcc, ih]
    · simp [firstOcc]

theorem firstOcc_lt (l : List (Option Entry)) (j : Nat)
    (h : firstOcc l = some j) : j < l.length := by
  induction l generalizing j with
  | nil => simp [firstOcc] at h
  | cons x xs ih =>
    rcases x with _ | e
    · rw [firstOcc] at h
      rcases hf : firstOcc xs with _ | k <;> rw [hf] at h
      · exact Option.noConfusion h
      · have := ih k hf
        cases Option.some.inj h
        simp
        omega
    · rw [firstOcc] at h
      cases Option.some.inj h
      simp

theorem is_done_spec (s : Pipeline) :
    s.is_done = true ↔
      (s.instr_queue = [] ∧ ∀ r ∈ s.pipeline_regs, r = none) := by
  rw [Pipeline.is_done]
  simp only [Bool.and_eq_true, Bool.not_eq_true', List.any_eq_false,
    List.isEmpty_iff]
  constructor
  · rintro ⟨h1, h2⟩
    refine ⟨h2, fun r hr => ?_⟩
    have := h1 r hr
    rcases r with _ | e
    · rfl
    · simp at this
  · rintro ⟨h1, h2⟩
    refine ⟨fun r hr => ?_, h1⟩
    rw [h2 r hr]
    simp

theorem measureM_zero_iff (s : Pipeline)
    (hlen : s.pipeline_regs.length = 5) :
    measureM s = 0 ↔ s.is_done = true := by
  rw [is_done_spec, measureM]
  rcases hq : s.instr_queue with _ | ⟨i, q⟩
  · dsimp only
    rcases hf : firstOcc s.pipeline_regs with _ | j
    · dsimp only
      simp [hq]
      exact (firstOcc_none_iff _).mp hf
    · dsimp only
      have hj := firstOcc_lt _ _ hf
      rw [hlen] at hj
      constructor
      · intro h
        omega
      · rintro ⟨-, h⟩
        have hcontra : firstOcc s.pipeline_regs = none :=
          (firstOcc_none_iff s.pipeline_regs).mpr h
        rw [hcontra] at hf
        exact Option.noConfusion hf
  · simp

theorem step_done (P : Predictor) (s : Pipeline)
    (hreg : s.pipeline_regs = List.replicate 5 none)
    (hq : s.instr_queue = [])
    (hsn : s.stages.length ≤ 5) :
    ∃ rec, step P s = some
      { stages := s.stages, instr_queue := [],
        pipeline_regs := List.replicate 5 none,
        cycle := s.cycle + 1, stalls := s.stalls, flushed := s.flushed,
        timeline := s.timeline ++ [rec] } := by
  have hreg' : s.pipeline_regs = none :: none :: none :: none :: none :: [] := hreg
  obtain ⟨s', hstep⟩ := step_total P s none none none none none [] hreg' (by simpa using hsn)
  obtain ⟨ev, hev, hs'⟩ := step_normal_eval P s s' none none none none none []
    hreg' (by rfl) hstep
  refine ⟨ev, ?_⟩
  rw [hstep, hs']
  simp [normalCore, predSlot, fetchSlot, hq, List.replicate]

theorem firstOcc_lt_five (a0 a1 a2 a3 a4 : Option Entry)
    (rest : List (Option Entry)) (hrest : ∀ r ∈ rest, r = none)
    (j : Nat) (h : firstOcc (a0 :: a1 :: a2 :: a3 :: a4 :: rest) = some j) :
    j < 5 := by
  have hfr : firstOcc rest = none := (firstOcc_none_iff rest).mpr hrest
  rcases a0 with _ | e0 <;> rcases a1 with _ | e1 <;>
    rcases a2 with _ | e2 <;> rcases a3 with _ | e3 <;>
    rcases a4 with _ | e4 <;>
    simp [firstOcc, hfr] at h <;> omega

theorem measureM_zero_done (s : Pipeline)
    (a0 a1 a2 a3 a4 : Option Entry) (rest : List (Option Entry))
    (hshape : s.pipeline_regs = a0 :: a1 :: a2 :: a3 :: a4 :: rest)
    (hrest : ∀ r ∈ rest, r = none) :
    measureM s = 0 ↔ s.is_done = true := by
  rw [is_done_spec, measureM]
  rcases hq : s.instr_queue with _ | ⟨i, q⟩
  · dsimp only
    rcases hf : firstOcc s.pipeline_regs with _ | j
    · dsimp only
      simp [hq]
      exact (firstOcc_none_iff _).mp hf
    · dsimp only
      have hj : j < 5 := by
        rw [hshape] at hf
        exact firstOcc_lt_five a0 a1 a2 a3 a4 rest hrest j hf
      constructor
      · intro h
        omega
      · rintro ⟨-, h⟩
        have hcontra : firstOcc s.pipeline_regs = none :=
          (firstOcc_none_iff s.pipeline_regs).mpr h
        rw [hcontra] at hf
        exact Option.noConfusion hf
  · simp

theorem replicate_shape (n : Nat) (h5 : 5 ≤ n) :
    List.replicate n (none : Option Entry) =
      none :: none :: none :: none :: none ::
        List.replicate (n - 5) none := by
  obtain ⟨k, hk⟩ : ∃ k, n = 5 + k := ⟨n - 5, by omega⟩
  subst hk
  have h1 : 5 + k - 5 = k := by omega
  rw [h1, List.replicate_add]
  rfl

theorem step_done_gen (P : Predictor) (s : Pipeline)
    (rest : List (Option Entry))
    (hreg : s.pipeline_regs = none :: none :: none :: none :: none :: rest)
    (hq : s.instr_queue = [])
    (hsn : s.stages.length ≤ 5 + rest.length) :
    ∃ rec, step P s = some
      { stages := s.stages, instr_queue := [],
        pipeline_regs := s.pipeline_regs,
        cycle := s.cycle + 1, stalls := s.stalls, flushed := s.flushed,
        timeline := s.timeline ++ [rec] } := by
  obtain ⟨s', hstep⟩ := step_total P s none none none none none rest hreg hsn
  obtain ⟨ev, hev, hs'⟩ := step_normal_eval P s s' none none none none none
    rest hreg (by rfl) hstep
  refine ⟨ev, ?_⟩
  rw [hstep, hs', hreg]
  simp [normalCore, predSlot, fetchSlot, hq]

theorem step_rest (P : Predictor) (s s' : Pipeline)
    (a0 a1 a2 a3 a4 : Option Entry) (rest : List (Option Entry))
    (hreg : s.pipeline_regs = a0 :: a1 :: a2 :: a3 :: a4 :: rest)
    (hstep : step P s = some s') :
    ∃ b0 b1 b2 b3 b4,
      s'.pipeline_regs = b0 :: b1 :: b2 :: b3 :: b4 :: rest := by
  rcases hsc : stallCond a1 a2
  · obtain ⟨ev, hev, hs'⟩ :=
      step_normal_eval P s s' a0 a1 a2 a3 a4 rest hreg hsc hstep
    obtain ⟨hcq, hforms⟩ := normalCore_forms P s.instr_queue
      s.timeline.length a0 a1 a2 a3 rest
    subst hs'
    rcases hforms with ⟨ha1, hform⟩ | ⟨e1, ha1, hform | hform⟩ <;>
      exact ⟨_, _, _, _, _, hform⟩
  · obtain ⟨e1, e2, ha1, ha2, hz⟩ := stallCond_true_some a1 a2 hsc
    subst ha1
    subst ha2
    obtain ⟨ev, hev, hs'⟩ :=
      step_stall_eval P s s' a0 (some e1) (some e2) a3 a4 rest hreg hsc hstep
    subst hs'
    exact ⟨_, _, _, _, _, rfl⟩

theorem stepN_rest (P : Predictor) (rest : List (Option Entry)) (n : Nat) :
    ∀ s t a0 a1 a2 a3 a4, stepN P s n = some t →
      s.pipeline_regs = a0 :: a1 :: a2 :: a3 :: a4 :: rest →
      ∃ b0 b1 b2 b3 b4,
        t.pipeline_regs = b0 :: b1 :: b2 :: b3 :: b4 :: rest := by
  induction n with
  | zero =>
    intro s t a0 a1 a2 a3 a4 h hreg
    cases h
    exact ⟨a0, a1, a2, a3, a4, hreg⟩
  | succ m ih =>
    intro s t a0 a1 a2 a3 a4 h hreg
    rcases hu : step P s with _ | u
    · simp only [stepN, hu] at h
      exact Option.noConfusion h
    · simp only [stepN, hu] at h
      obtain ⟨b0, b1, b2, b3, b4, hu'⟩ :=
        step_rest P s u a0 a1 a2 a3 a4 rest hreg hu
      exact ih u t b0 b1 b2 b3 b4 h hu'

set_option maxHeartbeats 2000000 in
theorem measure_step (P : Predictor) (s s' : Pipeline)
    (a0 a1 a2 a3 a4 : Option Entry) (rest : List (Option Entry))
    (hreg : s.pipeline_regs = a0 :: a1 :: a2 :: a3 :: a4 :: rest)
    (hrest : ∀ r ∈ rest, r = none)
    (hstep : step P s = some s') :
    (s'.stalls = s.stalls + 1 ∧ measureM s' ≤ measureM s) ∨
    (s'.stalls = s.stalls ∧
      (measureM s' + 1 ≤ measureM s ∨
        (measureM s = 0 ∧ measureM s' = 0))) := by
  have hfr : firstOcc rest = none := (firstOcc_none_iff rest).mpr hrest
  rcases hsc : stallCond a1 a2
  · obtain ⟨ev, hev, hs'⟩ :=
      step_normal_eval P s s' a0 a1 a2 a3 a4 rest hreg hsc hstep
    obtain ⟨hcq, hforms⟩ := normalCore_forms P s.instr_queue
      s.timeline.length a0 a1 a2 a3 rest
    subst hs'
    refine Or.inr ⟨rfl, ?_⟩
    dsimp only
    rcases fetchSlot_cases s.instr_queue s.timeline.length with
      ⟨hqe, hfe⟩ | ⟨i, q', hqe, hfe⟩ <;>
      rcases hforms with ⟨ha1, hform⟩ | ⟨e1, ha1, hform | hform⟩ <;>
      subst ha1 <;>
      rw [hform, hcq, hfe, hqe] <;>
      [skip; skip; skip; skip; skip; skip] <;>
      first
        | (rcases q' with _ | ⟨j, q''⟩ <;>
            rcases a0 with _ | e0 <;> rcases a2 with _ | ez <;>
            rcases a3 with _ | e3 <;> rcases a4 with _ | e4 <;>
            simp [measureM, firstOcc, hqe, hreg, hfr] <;> omega)
        | (rcases a0 with _ | e0 <;> rcases a2 with _ | ez <;>
            rcases a3 with _ | e3 <;> rcases a4 with _ | e4 <;>
            simp [measureM, firstOcc, hqe, hreg, hfr] <;> omega)
  · obtain ⟨e1, e2, ha1, ha2, hz⟩ := stallCond_true_some a1 a2 hsc
    subst ha1
    subst ha2
    obtain ⟨ev, hev, hs'⟩ :=
      step_stall_eval P s s' a0 (some e1) (some e2) a3 a4 rest hreg hsc hstep
    subst hs'
    refine Or.inl ⟨rfl, ?_⟩
    dsimp only
    rw [show stallRegs P a0 (some e1) (some e2) a3 rest =
      a0 :: some (applyPredict P e1).1 :: none :: some e2 :: a3 :: rest
      from rfl]
    rcases hq : s.instr_queue with _ | ⟨i, q⟩ <;>
      rcases a0 with _ | e0 <;> rcases a3 with _ | e3 <;>
      rcases a4 with _ | e4 <;>
      simp [measureM, firstOcc, hq, hreg, hfr] <;> omega

theorem run_bound (P : Predictor) (stages : List String)
    (instrs : List Instruction) (h5 : 5 ≤ stages.length) :
    ∀ n s, stepN P (Pipeline.init stages instrs) n = some s →
      s.is_done = true ∨
        measureM s + n ≤ instrs.length + 5 + s.stalls := by
  have hinit : (Pipeline.init stages instrs).pipeline_regs =
      none :: none :: none :: none :: none ::
        List.replicate (stages.length - 5) none := by
    show List.replicate stages.length none = _
    exact replicate_shape stages.length h5
  have hrest : ∀ r ∈ List.replicate (stages.length - 5)
      (none : Option Entry), r = none :=
    fun r hr => List.eq_of_mem_replicate hr
  intro n
  induction n with
  | zero =>
    intro s h
    cases h
    rcases hI : instrs with _ | ⟨i, is⟩
    · left
      rw [is_done_spec]
      exact ⟨by simp [Pipeline.init, hI], fun r hr =>
        List.eq_of_mem_replicate hr⟩
    · right
      simp [measureM, Pipeline.init, hI]
  | succ m ih =>
    intro s h
    rw [stepN_succ_right] at h
    rcases hm : stepN P (Pipeline.init stages instrs) m with _ | mid <;>
      rw [hm] at h
    · exact Option.noConfusion h
    · simp only [Option.some_bind] at h
      obtain ⟨hstg, hlen'⟩ := stepN_preserves P m _ mid hm
      obtain ⟨b0, b1, b2, b3, b4, hshape⟩ :=
        stepN_rest P (List.replicate (stages.length - 5) none) m
          (Pipeline.init stages instrs) mid none none none none none
          hm hinit
      rcases hdone : mid.is_done with _ | _
      · rcases ih mid hm with hb | hb
        · rw [hdone] at hb
          exact Bool.noConfusion hb
        · rcases measure_step P mid s b0 b1 b2 b3 b4 _ hshape hrest h with
            ⟨hst, hM⟩ | ⟨hst, hM⟩
          · right
            rw [hst]
            omega
          · rcases hM with hM | ⟨hM0, -⟩
            · right
              rw [hst]
              omega
            · have hcontra :=
                (measureM_zero_done mid b0 b1 b2 b3 b4 _ hshape hrest).mp hM0
              rw [hdone] at hcontra
              exact Bool.noConfusion hcontra
      · left
        obtain ⟨hq0, hall⟩ := (is_done_spec mid).mp hdone
        have hb0 : b0 = none := hall b0 (by rw [hshape]; simp)
        have hb1 : b1 = none := hall b1 (by rw [hshape]; simp)
        have hb2 : b2 = none := hall b2 (by rw [hshape]; simp)
        have hb3 : b3 = none := hall b3 (by rw [hshape]; simp)
        have hb4 : b4 = none := hall b4 (by rw [hshape]; simp)
        subst hb0
        subst hb1
        subst hb2
        subst hb3
        subst hb4
        obtain ⟨rec, hstep2⟩ := step_done_gen P mid _ hshape hq0
          (by rw [hstg]; simp [Pipeline.init]; omega)
        rw [h] at hstep2
        have hs := Option.some.inj hstep2
        rw [hs, is_done_spec]
        exact ⟨rfl, hall⟩

/-- C7 (amended): for every stage count of at least five, iterating
step() from the initial state makes is_done return true within
N + s + K calls, where N is the program length, s the stage count, and
K the number of stalls incurred by that point; and in any state reached
by the iteration in which is_done holds, a further step() keeps the
backlog and every slot empty and leaves the stall and flush counters
unchanged, but besides advancing the cycle counter it also appends one
record to the observable timeline.  (For stage counts 3 and 4 the first
step() raises instead, so is_done is never reached.) -/
theorem termination_bound (P : Predictor) (stages : List String)
    (instrs : List Instruction) (h5 : 5 ≤ stages.length) :
    (∀ n s, stepN P (Pipeline.init stages instrs) n = some s →
        instrs.length + stages.length + s.stalls ≤ n →
        s.is_done = true) ∧
    (∀ n s, stepN P (Pipeline.init stages instrs) n = some s →
        s.is_done = true →
        ∃ rec, step P s = some
          { stages := s.stages, instr_queue := [],
            pipeline_regs := s.pipeline_regs,
            cycle := s.cycle + 1, stalls := s.stalls,
            flushed := s.flushed,
            timeline := s.timeline ++ [rec] }) := by
  have hinit : (Pipeline.init stages instrs).pipeline_regs =
      none :: none :: none :: none :: none ::
        List.replicate (stages.length - 5) none := by
    show List.replicate stages.length none = _
    exact replicate_shape stages.length h5
  have hrest : ∀ r ∈ List.replicate (stages.length - 5)
      (none : Option Entry), r = none :=
    fun r hr => List.eq_of_mem_replicate hr
  constructor
  · intro n s h hn
    rcases run_bound P stages instrs h5 n s h with hd | hb
    · exact hd
    · obtain ⟨b0, b1, b2, b3, b4, hshape⟩ :=
        stepN_rest P (List.replicate (stages.length - 5) none) n
          (Pipeline.init stages instrs) s none none none none none h hinit
      have hM : measureM s = 0 := by omega
      exact (measureM_zero_done s b0 b1 b2 b3 b4 _ hshape hrest).mp hM
  · intro n s h hd
    obtain ⟨hstg, -⟩ := stepN_preserves P n _ s h
    obtain ⟨b0, b1, b2, b3, b4, hshape⟩ :=
      stepN_rest P (List.replicate (stages.length - 5) none) n
        (Pipeline.init stages instrs) s none none none none none h hinit
    obtain ⟨hq0, hall⟩ := (is_done_spec s).mp hd
    have hb0 : b0 = none := hall b0 (by rw [hshape]; simp)
    have hb1 : b1 = none := hall b1 (by rw [hshape]; simp)
    have hb2 : b2 = none := hall b2 (by rw [hshape]; simp)
    have hb3 : b3 = none := hall b3 (by rw [hshape]; simp)
    have hb4 : b4 = none := hall b4 (by rw [hshape]; simp)
    subst hb0
    subst hb1
    subst hb2
    subst hb3
    subst hb4
    exact step_done_gen P s _ hshape hq0
      (by rw [hstg]; simp [Pipeline.init]; omega)

/-- C7 (counterexample): a finished engine's step() is not unobservable
outside the cycle counter -- it appends a record to the timeline (here
the initial empty-program state is done with an empty timeline, and one
step keeps backlog and slots empty but grows the timeline to length 1);
moreover the claim's quantification over every stage count fails: a
three-stage engine's first step() raises, so is_done is never reached. -/
theorem idle_step_changes_timeline :
    (Pipeline.init stagesFive []).is_done = true ∧
    (Pipeline.init stagesFive []).timeline.length = 0 ∧
    (step notTakenQuiet (Pipeline.init stagesFive [])).map
        (fun u => (u.instr_queue, u.pipeline_regs, u.timeline.length)) =
      some ([], List.replicate 5 none, 1) ∧
    stepN notTakenQuiet
      (Pipeline.init ["IF", "ID", "EX"] progStallNoBranch) 1 = none := by
  refine ⟨by decide, by decide, by decide, by decide⟩

/-- Witness for the amended C7 theorem at a six-stage configuration and
the four-instruction stall program. -/
theorem termination_bound_witness :
    5 ≤ stagesSix.length ∧
    ((∀ n s,
        stepN notTakenQuiet (Pipeline.init stagesSix progStallNoBranch) n
          = some s →
        progStallNoBranch.length + stagesSix.length + s.stalls ≤ n →
        s.is_done = true) ∧
     (∀ n s,
        stepN notTakenQuiet (Pipeline.init stagesSix progStallNoBranch) n
          = some s →
        s.is_done = true →
        ∃ rec, step notTakenQuiet s = some
          { stages := s.stages, instr_queue := [],
            pipeline_regs := s.pipeline_regs,
            cycle := s.cycle + 1, stalls := s.stalls,
            flushed := s.flushed,
            timeline := s.timeline ++ [rec] })) :=
  ⟨by decide,
   termination_bound notTakenQuiet stagesSix progStallNoBranch (by decide)⟩
